import Mathlib

/-!
Verification of the HTML-to-markdown conversion pipeline in
`src/converter/zig_docs_converter.py`.

Strings are modelled as `List Char`.  Python regular-expression character
classes (`\s`, `\w`, `\d`) and `str.lower`/`str.strip` are modelled at the
ASCII level, which is the range exercised by the converter.  Each Python
function is embedded as a Lean function of the same name; the regex
substitutions inside `clean_markdown` and `fix_internal_links` are embedded
as dedicated scanners that reproduce `re.sub`'s leftmost, backtracking
behaviour for those concrete patterns.
-/

namespace ZigDocs

/-- ASCII model of Python's whitespace set: the characters matched by the
regex class `\s` and stripped by `str.strip()`. -/
def isPySpace (c : Char) : Bool :=
  c = ' ' || c = '\t' || c = '\n' || c = '\r' || c = '\x0b' || c = '\x0c'

/-- ASCII model of the regex class `\w`: letters, digits and underscore. -/
def isWordChar (c : Char) : Bool :=
  ('a' ≤ c && c ≤ 'z') || ('A' ≤ c && c ≤ 'Z') || ('0' ≤ c && c ≤ '9') || c = '_'

/-- An ASCII uppercase letter (the characters `str.lower` rewrites). -/
def isUpperB (c : Char) : Bool := 'A' ≤ c && c ≤ 'Z'

/-- ASCII model of `str.lower`. -/
def pyLower (c : Char) : Char :=
  if isUpperB c then Char.ofNat (c.toNat + 32) else c

/-- `leadsWith w s` holds when `w` is an initial run of `s`
(model of `str.startswith`). -/
def leadsWith : List Char → List Char → Bool
  | [], _ => true
  | _ :: _, [] => false
  | a :: w, b :: s => a == b && leadsWith w s

/-- Python `str.strip()` on the ASCII whitespace set. -/
def pyStrip (s : List Char) : List Char :=
  ((s.dropWhile isPySpace).reverse.dropWhile isPySpace).reverse

/-- Python `str.strip('-')`. -/
def stripHyphen (s : List Char) : List Char :=
  ((s.dropWhile (· = '-')).reverse.dropWhile (· = '-')).reverse

/-! ## `slugify`

```python
def slugify(text: str) -> str:
    slug = re.sub(r'[^\w\s-]', '', text.lower())
    slug = re.sub(r'[-\s]+', '-', slug)
    return slug.strip('-')
```
-/

/-- A character kept by `re.sub(r'[^\w\s-]', '', ·)`. -/
def isSlugKeep (c : Char) : Bool := isWordChar c || isPySpace c || c = '-'

/-- A character matched by the regex class `[-\s]`. -/
def isHySp (c : Char) : Bool := c = '-' || isPySpace c

theorem dropWhile_length_le (p : α → Bool) (l : List α) :
    (l.dropWhile p).length ≤ l.length := by
  induction l with
  | nil => simp [List.dropWhile]
  | cons a l ih =>
    by_cases h : p a
    · simp only [List.dropWhile_cons_of_pos h, List.length_cons]
      exact Nat.le_succ_of_le ih
    · simp [List.dropWhile_cons_of_neg h]

/-- `re.sub(r'[-\s]+', '-', ·)`: every maximal run of hyphen/whitespace
characters is replaced by a single hyphen. -/
def collapseHySp : List Char → List Char
  | [] => []
  | c :: rest =>
    if isHySp c then '-' :: collapseHySp (rest.dropWhile isHySp)
    else c :: collapseHySp rest
termination_by s => s.length
decreasing_by
  · simp only [List.length_cons]
    exact Nat.lt_succ_of_le (dropWhile_length_le _ _)
  · simp

/-- `slugify` from the converter. -/
def slugify (text : List Char) : List Char :=
  stripHyphen (collapseHySp ((text.map pyLower).filter isSlugKeep))

/-- A lowercase ASCII alphanumeric character. -/
def isLowerAlnum (c : Char) : Bool :=
  ('a' ≤ c && c ≤ 'z') || ('0' ≤ c && c ≤ '9')

/-- `noHH s` holds when `s` has no two adjacent hyphens. -/
def noHH : List Char → Bool
  | [] => true
  | [_] => true
  | a :: b :: rest => !(a = '-' && b = '-') && noHH (b :: rest)

/-- The characters that can appear in a slug: lowercase ASCII alphanumerics,
underscore (kept by the `\w` class) and hyphen. -/
def isSlugOut (c : Char) : Bool := isLowerAlnum c || c = '_' || c = '-'

/-! ### Character-level facts -/

theorem charOfNat_toNat {n : Nat} (h : n < 128) : (Char.ofNat n).toNat = n := by
  have hv : n.isValidChar := Or.inl (by omega)
  simp [Char.ofNat, hv, Char.ofNatAux, Char.toNat, UInt32.toNat, BitVec.toNat_ofNatLt]

theorem isUpperB_pyLower (c : Char) : isUpperB (pyLower c) = false := by
  unfold pyLower
  by_cases h : isUpperB c = true
  · rw [if_pos h]
    unfold isUpperB at h
    simp only [Bool.and_eq_true, decide_eq_true_eq] at h
    have hn : c.toNat ≤ 90 := h.2
    have h65 : (65 : Nat) ≤ c.toNat := h.1
    have hlt : c.toNat + 32 < 128 := by omega
    have ht : (Char.ofNat (c.toNat + 32)).toNat = c.toNat + 32 := charOfNat_toNat hlt
    have hne : ¬ (Char.ofNat (c.toNat + 32) ≤ 'Z') := by
      intro hc
      have h90 : (Char.ofNat (c.toNat + 32)).toNat ≤ 90 := hc
      rw [ht] at h90
      omega
    simp [isUpperB, hne]
  · rw [if_neg h]
    exact Bool.eq_false_iff.mpr h

theorem pyLower_eq_self {c : Char} (h : isUpperB c = false) : pyLower c = c := by
  unfold pyLower
  rw [h]
  simp

/-- A kept character that is not hyphen/whitespace is a word character. -/
theorem isWordChar_of_keep {c : Char} (hk : isSlugKeep c = true)
    (hh : isHySp c = false) : isWordChar c = true := by
  unfold isSlugKeep at hk
  unfold isHySp at hh
  simp only [Bool.or_eq_true, Bool.or_eq_false_iff, decide_eq_true_eq,
    decide_eq_false_iff_not] at hk hh
  rcases hk with (h | h) | h
  · exact h
  · exact absurd h (by simp [hh.2])
  · exact absurd h hh.1

/-- A non-uppercase word character is a lowercase alphanumeric or underscore. -/
theorem isSlugOut_of_word {c : Char} (hw : isWordChar c = true)
    (hu : isUpperB c = false) : isSlugOut c = true := by
  unfold isWordChar at hw
  unfold isUpperB at hu
  unfold isSlugOut isLowerAlnum
  simp only [Bool.or_eq_true, Bool.and_eq_true, decide_eq_true_eq,
    Bool.and_eq_false_iff, decide_eq_false_iff_not] at hw hu ⊢
  rcases hw with ((h | h) | h) | h
  · exact Or.inl (Or.inl (Or.inl h))
  · rcases hu with hu | hu
    · exact absurd h.1 hu
    · exact absurd h.2 hu
  · exact Or.inl (Or.inl (Or.inr h))
  · exact Or.inl (Or.inr h)

theorem isSlugOut_hyphen : isSlugOut '-' = true := by decide

/-- Slug output characters are never uppercase. -/
theorem isUpperB_of_slugOut {c : Char} (h : isSlugOut c = true) :
    isUpperB c = false := by
  unfold isSlugOut isLowerAlnum at h
  simp only [Bool.or_eq_true, Bool.and_eq_true, decide_eq_true_eq] at h
  rcases h with ((h | h) | h) | h
  · unfold isUpperB
    simp only [Bool.and_eq_false_iff, decide_eq_false_iff_not]
    right; intro hc
    have h1 : 97 ≤ c.toNat := h.1
    have h2 : c.toNat ≤ 90 := hc
    omega
  · unfold isUpperB
    simp only [Bool.and_eq_false_iff, decide_eq_false_iff_not]
    left; intro hc
    have h1 : c.toNat ≤ 57 := h.2
    have h2 : (65 : Nat) ≤ c.toNat := hc
    omega
  · subst h; decide
  · subst h; decide

/-! ### `noHH` stability lemmas -/

theorem noHH_tail {a : Char} {l : List Char} (h : noHH (a :: l) = true) :
    noHH l = true := by
  cases l with
  | nil => rfl
  | cons b r =>
    unfold noHH at h
    simp only [Bool.and_eq_true] at h
    exact h.2

theorem noHH_cons {x : Char} {l : List Char} (hl : noHH l = true)
    (hx : ∀ d, l.head? = some d → ¬(x = '-' ∧ d = '-')) :
    noHH (x :: l) = true := by
  cases l with
  | nil => rfl
  | cons d r =>
    unfold noHH
    simp only [Bool.and_eq_true]
    refine ⟨?_, hl⟩
    have := hx d rfl
    simp only [Bool.not_eq_true', Bool.and_eq_false_iff, decide_eq_false_iff_not]
    by_cases hxd : x = '-'
    · exact Or.inr (fun hd => this ⟨hxd, hd⟩)
    · exact Or.inl hxd

theorem noHH_take : ∀ (n : Nat) (l : List Char), noHH l = true →
    noHH (l.take n) = true := by
  intro n l
  induction l using noHH.induct generalizing n with
  | case1 => intro _; simp [noHH]
  | case2 a =>
    intro _
    cases n with
    | zero => rfl
    | succ m => simp [List.take, noHH]
  | case3 a b rest ih =>
    intro h
    unfold noHH at h
    simp only [Bool.and_eq_true] at h
    obtain ⟨h1, h2⟩ := h
    cases n with
    | zero => rfl
    | succ m =>
      cases m with
      | zero => simp [List.take, noHH]
      | succ m' =>
        simp only [List.take]
        unfold noHH
        simp only [Bool.and_eq_true]
        refine ⟨h1, ?_⟩
        have : (b :: rest).take (m' + 1) = b :: rest.take m' := by simp [List.take]
        rw [← this]
        exact ih (m' + 1) h2

theorem noHH_dropWhile (p : Char → Bool) : ∀ (l : List Char), noHH l = true →
    noHH (l.dropWhile p) = true := by
  intro l
  induction l with
  | nil => intro _; simp [List.dropWhile, noHH]
  | cons a l ih =>
    intro h
    rw [List.dropWhile_cons]
    split
    · exact ih (noHH_tail h)
    · exact h

/-! ### `dropWhile` / `take` head facts and the `stripHyphen` representation -/

theorem dropWhile_head?_false (p : Char → Bool) :
    ∀ (l : List Char) (d : Char), (l.dropWhile p).head? = some d → p d = false := by
  intro l
  induction l with
  | nil => intro d h; simp [List.dropWhile] at h
  | cons a l ih =>
    intro d h
    rw [List.dropWhile_cons] at h
    by_cases hp : p a = true
    · rw [if_pos hp] at h
      exact ih d h
    · rw [if_neg hp] at h
      simp only [List.head?_cons, Option.some.injEq] at h
      rw [← h]
      exact Bool.eq_false_iff.mpr hp

theorem head?_take_succ (l : List Char) (n : Nat) :
    (l.take (n + 1)).head? = l.head? := by
  cases l <;> simp [List.take]

theorem stripHyphen_eq_take (x : List Char) :
    ∃ m, stripHyphen x = (x.dropWhile (· = '-')).take m := by
  unfold stripHyphen
  set a := x.dropWhile (· = '-') with ha
  set tw := a.reverse.takeWhile (· = '-') with htw
  set dw := a.reverse.dropWhile (· = '-') with hdw
  have hsplit : tw ++ dw = a.reverse := List.takeWhile_append_dropWhile _ a.reverse
  have hdrop : dw = a.reverse.drop tw.length := by
    conv_rhs => rw [← hsplit]
    rw [List.drop_left]
  refine ⟨a.reverse.length - tw.length, ?_⟩
  rw [hdrop, List.reverse_drop]
  simp

theorem stripHyphen_subset {x : List Char} {c : Char} (h : c ∈ stripHyphen x) :
    c ∈ x := by
  obtain ⟨m, hm⟩ := stripHyphen_eq_take x
  rw [hm] at h
  exact (List.dropWhile_sublist _).subset (List.take_subset _ _ h)

theorem stripHyphen_noHH {x : List Char} (h : noHH x = true) :
    noHH (stripHyphen x) = true := by
  obtain ⟨m, hm⟩ := stripHyphen_eq_take x
  rw [hm]
  exact noHH_take m _ (noHH_dropWhile _ x h)

theorem stripHyphen_head? (x : List Char) (d : Char)
    (h : (stripHyphen x).head? = some d) : d ≠ '-' := by
  obtain ⟨m, hm⟩ := stripHyphen_eq_take x
  rw [hm] at h
  cases m with
  | zero => simp at h
  | succ m' =>
    rw [head?_take_succ] at h
    have := dropWhile_head?_false _ x d h
    simpa using this

theorem stripHyphen_getLast? (x : List Char) (d : Char)
    (h : (stripHyphen x).getLast? = some d) : d ≠ '-' := by
  unfold stripHyphen at h
  rw [List.getLast?_reverse] at h
  have := dropWhile_head?_false (· = '-') _ d h
  simpa using this

theorem dropWhile_eq_self_of_head (p : Char → Bool) (l : List Char)
    (h : ∀ d, l.head? = some d → p d = false) : l.dropWhile p = l := by
  cases l with
  | nil => rfl
  | cons a r =>
    rw [List.dropWhile_cons, if_neg]
    simp [h a rfl]

theorem stripHyphen_eq_self {x : List Char}
    (h1 : ∀ d, x.head? = some d → d ≠ '-')
    (h2 : ∀ d, x.getLast? = some d → d ≠ '-') : stripHyphen x = x := by
  unfold stripHyphen
  rw [dropWhile_eq_self_of_head _ x (fun d hd => by simp [h1 d hd])]
  rw [dropWhile_eq_self_of_head _ x.reverse
    (fun d hd => by
      rw [List.head?_reverse] at hd
      simp [h2 d hd])]
  exact List.reverse_reverse x

/-! ### `collapseHySp` lemmas -/

theorem collapseHySp_nil : collapseHySp [] = [] := by rw [collapseHySp]

theorem collapseHySp_cons_pos {c : Char} (rest : List Char) (h : isHySp c = true) :
    collapseHySp (c :: rest) = '-' :: collapseHySp (rest.dropWhile isHySp) := by
  rw [collapseHySp, if_pos h]

theorem collapseHySp_cons_neg {c : Char} (rest : List Char) (h : ¬ isHySp c = true) :
    collapseHySp (c :: rest) = c :: collapseHySp rest := by
  rw [collapseHySp, if_neg h]

theorem collapseHySp_mem {s : List Char}
    (hs : ∀ c ∈ s, isSlugKeep c = true ∧ isUpperB c = false) :
    ∀ c ∈ collapseHySp s, isSlugOut c = true := by
  induction s using collapseHySp.induct with
  | case1 => simp [collapseHySp_nil]
  | case2 c rest hc ih =>
    rw [collapseHySp_cons_pos rest hc]
    intro d hd
    rcases List.mem_cons.mp hd with h | h
    · rw [h]; exact isSlugOut_hyphen
    · refine ih ?_ d h
      intro e he
      exact hs e (List.mem_cons_of_mem c ((List.dropWhile_sublist _).subset he))
  | case3 c rest hc ih =>
    rw [collapseHySp_cons_neg rest hc]
    intro d hd
    rcases List.mem_cons.mp hd with h | h
    · rw [h]
      have hk := hs c (List.mem_cons_self c rest)
      exact isSlugOut_of_word
        (isWordChar_of_keep hk.1 (Bool.eq_false_iff.mpr hc)) hk.2
    · exact ih (fun e he => hs e (List.mem_cons_of_mem c he)) d h

theorem collapseHySp_head?_after_drop (r : List Char) (e : Char)
    (h : (collapseHySp (r.dropWhile isHySp)).head? = some e) : isHySp e = false := by
  cases hr : r.dropWhile isHySp with
  | nil => rw [hr, collapseHySp_nil] at h; simp at h
  | cons d t =>
    have hd : isHySp d = false := by
      have := dropWhile_head?_false isHySp r d (by rw [hr]; rfl)
      exact this
    rw [hr, collapseHySp_cons_neg t (by simp [hd])] at h
    simp only [List.head?_cons, Option.some.injEq] at h
    rw [← h]
    exact hd

theorem collapseHySp_noHH (s : List Char) : noHH (collapseHySp s) = true := by
  induction s using collapseHySp.induct with
  | case1 => simp [collapseHySp_nil, noHH]
  | case2 c rest hc ih =>
    rw [collapseHySp_cons_pos rest hc]
    refine noHH_cons ih ?_
    intro d hd hpair
    have := collapseHySp_head?_after_drop rest d hd
    rw [hpair.2] at this
    simp [isHySp] at this
  | case3 c rest hc ih =>
    rw [collapseHySp_cons_neg rest hc]
    refine noHH_cons ih ?_
    intro d _ hpair
    apply hc
    rw [hpair.1]
    decide

theorem collapseHySp_eq_self {s : List Char}
    (hs : ∀ c ∈ s, isHySp c = true → c = '-') (hn : noHH s = true) :
    collapseHySp s = s := by
  induction s using collapseHySp.induct with
  | case1 => exact collapseHySp_nil
  | case2 c rest hc ih =>
    have hcm : c = '-' := hs c (List.mem_cons_self c rest) hc
    rw [collapseHySp_cons_pos rest hc]
    have hdrop : rest.dropWhile isHySp = rest := by
      cases rest with
      | nil => rfl
      | cons d r =>
        apply dropWhile_eq_self_of_head
        intro e he
        simp only [List.head?_cons, Option.some.injEq] at he
        subst he
        by_contra hcon
        have hdm : d = '-' :=
          hs d (List.mem_cons_of_mem c (List.mem_cons_self d r))
            (Bool.not_eq_false _ ▸ (by simpa using hcon))
        rw [hcm, hdm] at hn
        unfold noHH at hn
        simp at hn
    rw [hdrop] at ih ⊢
    rw [ih (fun e he hh => hs e (List.mem_cons_of_mem c he) hh) (noHH_tail hn), hcm]
  | case3 c rest hc ih =>
    rw [collapseHySp_cons_neg rest hc]
    rw [ih (fun e he hh => hs e (List.mem_cons_of_mem c he) hh) (noHH_tail hn)]

/-! ### `slugify` properties (claim C4) -/

theorem isSlugKeep_of_slugOut {c : Char} (h : isSlugOut c = true) :
    isSlugKeep c = true := by
  unfold isSlugOut isLowerAlnum at h
  unfold isSlugKeep isWordChar
  simp only [Bool.or_eq_true, Bool.and_eq_true, decide_eq_true_eq] at h ⊢
  rcases h with ((h | h) | h) | h
  · exact Or.inl (Or.inl (Or.inl (Or.inl (Or.inl h))))
  · exact Or.inl (Or.inl (Or.inl (Or.inr h)))
  · exact Or.inl (Or.inl (Or.inr h))
  · exact Or.inr h

theorem slugOut_hySp_hyphen {c : Char} (ho : isSlugOut c = true)
    (hh : isHySp c = true) : c = '-' := by
  unfold isHySp at hh
  simp only [Bool.or_eq_true, decide_eq_true_eq] at hh
  rcases hh with hh | hh
  · exact hh
  · exfalso
    unfold isSlugOut isLowerAlnum at ho
    simp only [Bool.or_eq_true, Bool.and_eq_true, decide_eq_true_eq] at ho
    unfold isPySpace at hh
    simp only [Bool.or_eq_true, decide_eq_true_eq] at hh
    rcases hh with ((((e | e) | e) | e) | e) | e <;> subst e <;>
      rcases ho with ((h | h) | h) | h <;>
        first
          | exact absurd h.1 (by decide)
          | exact absurd h (by decide)

theorem map_id_of_forall {t : List Char} {f : Char → Char}
    (h : ∀ c ∈ t, f c = c) : t.map f = t := by
  induction t with
  | nil => rfl
  | cons a t ih =>
    simp only [List.map_cons]
    rw [h a (List.mem_cons_self a t), ih (fun c hc => h c (List.mem_cons_of_mem a hc))]

theorem filter_id_of_forall {t : List Char} {p : Char → Bool}
    (h : ∀ c ∈ t, p c = true) : t.filter p = t := by
  induction t with
  | nil => rfl
  | cons a t ih =>
    rw [List.filter_cons_of_pos (h a (List.mem_cons_self a t)),
      ih (fun c hc => h c (List.mem_cons_of_mem a hc))]

theorem slug_base_mem (s : List Char) :
    ∀ c ∈ (s.map pyLower).filter isSlugKeep,
      isSlugKeep c = true ∧ isUpperB c = false := by
  intro c hc
  rw [List.mem_filter] at hc
  obtain ⟨hm, hk⟩ := hc
  refine ⟨hk, ?_⟩
  obtain ⟨a, _, ha⟩ := List.mem_map.mp hm
  rw [← ha]
  exact isUpperB_pyLower a

theorem slugify_mem {s : List Char} : ∀ c ∈ slugify s, isSlugOut c = true := by
  intro c hc
  unfold slugify at hc
  exact collapseHySp_mem (slug_base_mem s) c (stripHyphen_subset hc)

theorem slugify_noHH (s : List Char) : noHH (slugify s) = true :=
  stripHyphen_noHH (collapseHySp_noHH _)

theorem slugify_idem (s : List Char) : slugify (slugify s) = slugify s := by
  have hall : ∀ c ∈ slugify s, isSlugOut c = true := slugify_mem
  have h1 : (slugify s).map pyLower = slugify s :=
    map_id_of_forall (fun c hc => pyLower_eq_self (isUpperB_of_slugOut (hall c hc)))
  have h2 : (slugify s).filter isSlugKeep = slugify s :=
    filter_id_of_forall (fun c hc => isSlugKeep_of_slugOut (hall c hc))
  have h3 : collapseHySp (slugify s) = slugify s :=
    collapseHySp_eq_self
      (fun c hc hh => slugOut_hySp_hyphen (hall c hc) hh) (slugify_noHH s)
  have h4 : stripHyphen (slugify s) = slugify s := by
    apply stripHyphen_eq_self
    · intro d hd
      unfold slugify at hd
      exact stripHyphen_head? _ d hd
    · intro d hd
      unfold slugify at hd
      exact stripHyphen_getLast? _ d hd
  calc slugify (slugify s)
      = stripHyphen (collapseHySp (((slugify s).map pyLower).filter isSlugKeep)) := rfl
    _ = slugify s := by rw [h1, h2, h3, h4]

/-- **C4 counterexample.**  The claim says `slugify` output contains only
lowercase alphanumerics and hyphens; on input `"a_b"` the output is `"a_b"`,
which contains an underscore (the regex class `\w` keeps underscores). -/
theorem c4_counterexample :
    slugify ("a_b".data) = "a_b".data ∧
    ("a_b".data).all (fun c => isLowerAlnum c || c = '-') = false := by
  constructor
  · unfold slugify
    have hbase : ((("a_b".data).map pyLower).filter isSlugKeep) = "a_b".data := by
      decide
    rw [hbase]
    rw [collapseHySp_cons_neg _ (by decide), collapseHySp_cons_neg _ (by decide),
      collapseHySp_cons_neg _ (by decide), collapseHySp_nil]
    decide
  · decide

/-- **C4 (amended).**  For every input, `slugify` output contains only
lowercase alphanumerics, underscores and hyphens, has no two adjacent
hyphens and no leading or trailing hyphen, and `slugify` is idempotent. -/
theorem c4_slugify_spec (s : List Char) :
    (slugify s).all isSlugOut = true ∧
    noHH (slugify s) = true ∧
    (slugify s).head? ≠ some '-' ∧
    (slugify s).getLast? ≠ some '-' ∧
    slugify (slugify s) = slugify s := by
  refine ⟨?_, slugify_noHH s, ?_, ?_, slugify_idem s⟩
  · rw [List.all_eq_true]
    intro c hc
    exact slugify_mem c hc
  · intro h
    exact stripHyphen_head? _ '-' h rfl
  · intro h
    exact stripHyphen_getLast? _ '-' h rfl

/-! ## `parse_toc` (claim C3)

The DOM is abstracted to the queries `parse_toc` makes: the four container
lookups (`soup.find('nav', aria-labelledby='table-of-contents')`,
`soup.find('div', id='toc')`, `soup.find('div', id='index')`,
`soup.find('div', id='nav')`), the contained `<ul>` (`toc_nav.find('ul')`)
with its direct `<li>` children, and each `<li>`'s first `<a>`. -/

structure TocLink where
  href : List Char
  text : List Char
deriving DecidableEq, Repr

structure TocLi where
  link : Option TocLink
deriving DecidableEq, Repr

structure TocContainer where
  ul : Option (List TocLi)
deriving DecidableEq, Repr

structure TocDoc where
  navToc : Option TocContainer
  divToc : Option TocContainer
  divIndex : Option TocContainer
  divNav : Option TocContainer
deriving DecidableEq, Repr

structure TocEntry where
  number : Nat
  id : List Char
  title : List Char
  filename : List Char
deriving DecidableEq, Repr

/-- Python `f"{n:02d}"` for a nonnegative section number. -/
def pad2 (n : Nat) : List Char :=
  if n < 10 then '0' :: (Nat.repr n).data else (Nat.repr n).data

/-- The filename `f"{section_num:02d}-{slugify(section_title)}.md"`. -/
def sectionFilename (n : Nat) (title : List Char) : List Char :=
  pad2 n ++ ('-' :: slugify title) ++ ".md".data

/-- The per-`<li>` loop of `parse_toc`: entries without a link, or whose
href is not an in-page anchor, are skipped without consuming a number. -/
def parse_toc_entries : Nat → List TocLi → List TocEntry
  | _, [] => []
  | n, li :: rest =>
    match li.link with
    | none => parse_toc_entries n rest
    | some lk =>
      if lk.href.head? = some '#' then
        { number := n, id := lk.href.drop 1, title := pyStrip lk.text,
          filename := sectionFilename n (pyStrip lk.text) }
          :: parse_toc_entries (n + 1) rest
      else parse_toc_entries n rest

/-- `parse_toc`, mirroring the source's fallback chain: each legacy
container is consulted only when the previous lookup returned nothing. -/
def parse_toc (d : TocDoc) : List TocEntry :=
  let c1 := d.navToc
  let c2 := match c1 with | some c => some c | none => d.divToc
  let c3 := match c2 with | some c => some c | none => d.divIndex
  let c4 := match c3 with | some c => some c | none => d.divNav
  match c4 with
  | none => []
  | some cont =>
    match cont.ul with
    | none => []
    | some lis => parse_toc_entries 1 lis

/-- The first container found, in the fixed priority order. -/
def firstTocContainer (d : TocDoc) : Option TocContainer :=
  match d.navToc with
  | some c => some c
  | none =>
    match d.divToc with
    | some c => some c
    | none =>
      match d.divIndex with
      | some c => some c
      | none => d.divNav

/-- **C3 counterexample.**  The claim says that when an earlier pattern's
container is present but yields no entries, a later pattern that would
yield entries is used instead.  In the code the first container found wins
unconditionally: with a modern `<nav>` landmark containing no `<ul>` and a
legacy `div#toc` containing a valid entry, `parse_toc` returns no entries,
while deleting the `<nav>` makes the same legacy container yield one. -/
theorem c3_counterexample :
    parse_toc
      { navToc := some { ul := none },
        divToc := some { ul := some [{ link := some { href := "#Intro".data, text := "Intro".data } }] },
        divIndex := none, divNav := none } = [] ∧
    parse_toc
      { navToc := none,
        divToc := some { ul := some [{ link := some { href := "#Intro".data, text := "Intro".data } }] },
        divIndex := none, divNav := none } ≠ [] := by
  constructor
  · rfl
  · simp [parse_toc, parse_toc_entries]

/-- **C3 (amended).**  The four structural patterns are tried in fixed
priority order and the first pattern whose *container is found* wins;
entries are parsed only from that container.  If the chosen container
yields no entries — no `<ul>`, or no valid `<li>` links — `parse_toc`
returns the empty list even when a later pattern's container would have
yielded entries. -/
theorem c3_parse_toc_first_container (d : TocDoc) :
    parse_toc d =
      (match firstTocContainer d with
       | none => []
       | some cont =>
         match cont.ul with
         | none => []
         | some lis => parse_toc_entries 1 lis) := by
  unfold parse_toc firstTocContainer
  cases d.navToc <;> cases d.divToc <;> cases d.divIndex <;> cases d.divNav <;> rfl

/-! ## `ZigMarkdownConverter.convert_pre` and `convert_figure` (claims C7, C10)

Elements are abstracted to the queries the two handlers make.  BeautifulSoup
`Tag` truthiness (`if not code_block:`) is `len(tag.contents) != 0`, so the
`<pre>` found inside a figure carries its child count. -/

/-- The backtick character (U+0060). -/
def btick : Char := '\x60'

/-- The `<code>` element found by `el.find('code')`: its `class` attribute
and its `get_text()`. -/
structure CodeEl where
  classes : List (List Char)
  text : List Char
deriving DecidableEq, Repr

/-- The element returned by `el.find_previous_sibling()`. -/
structure SibEl where
  name : List Char
  classes : List (List Char)
  text : List Char
deriving DecidableEq, Repr

/-- A `<pre>` element as seen by `convert_pre`: whether some ancestor is a
`<figure>`, the parent's tag name, the contained `<code>` element, and the
previous sibling. -/
structure PreEl where
  inFigure : Bool
  parentName : Option (List Char)
  code : Option CodeEl
  prevSibling : Option SibEl
deriving DecidableEq, Repr

/-- `parent and parent.name in ('td', 'th')`. -/
def isTableCell : Option (List Char) → Bool
  | some n => n == "td".data || n == "th".data
  | none => false

/-- `' '.join(text.split())`: whitespace runs collapsed to single spaces. -/
def collapseWsRuns : List Char → List Char
  | [] => []
  | c :: rest =>
    if isPySpace c then ' ' :: collapseWsRuns (rest.dropWhile isPySpace)
    else c :: collapseWsRuns rest
termination_by s => s.length
decreasing_by
  · simp only [List.length_cons]
    exact Nat.lt_succ_of_le (dropWhile_length_le _ _)
  · simp

def pyJoinSplit (s : List Char) : List Char := pyStrip (collapseWsRuns s)

/-- The language-class loop: `for lang in ['zig','shell','c','javascript','peg']`. -/
def detectLang (classes : List (List Char)) : List Char :=
  match ["zig".data, "shell".data, "c".data, "javascript".data, "peg".data].find?
      (fun l => classes.contains l) with
  | some l => l
  | none => []

/-- The legacy `<p class="file">` label check. -/
def fileLabel (prev : Option SibEl) : List Char :=
  match prev with
  | some sib =>
    if sib.name == "p".data && sib.classes.contains "file".data then
      "**".data ++ btick :: pyStrip sib.text ++ btick :: ":**\n\n".data
    else []
  | none => []

/-- `convert_pre` from `ZigMarkdownConverter`.  `superPre` stands for the
inherited `markdownify` implementation used for `<pre>` inside figures. -/
def convert_pre (superPre : List Char → List Char) (el : PreEl)
    (text : List Char) : List Char :=
  if el.inFigure then superPre text
  else if isTableCell el.parentName && el.code.isSome then
    match el.code with
    | some ce => btick :: pyJoinSplit ce.text ++ [btick]
    | none => text
  else
    match el.code with
    | some ce =>
      let language := detectLang ce.classes
      let label := fileLabel el.prevSibling
      let ct := pyStrip ce.text
      if ct.head? = some btick && ct.getLast? = some btick then
        '\n' :: "```\n".data ++ (ct.drop 1).dropLast ++ "\n```\n".data
      else
        '\n' :: label ++ "```".data ++ language ++ '\n' :: ce.text ++ "\n```\n".data
    | none => text

/-- **C7.**  A standalone `<pre>` (not inside a figure, not in a table
cell) whose code text is exactly `` `foo()` `` renders as a fenced block
containing `foo()` with the wrapping backticks stripped — no label and no
language tag, and no doubled backtick wrapping. -/
theorem c7_convert_pre_backtick (superPre : List Char → List Char)
    (el : PreEl) (text : List Char) (cls : List (List Char))
    (h1 : el.inFigure = false)
    (h2 : isTableCell el.parentName = false)
    (hce : el.code = some { classes := cls, text := (btick :: "foo()".data) ++ [btick] }) :
    convert_pre superPre el text = "\n```\nfoo()\n```\n".data := by
  unfold convert_pre
  rw [h1, h2, hce]
  simp only [Bool.false_eq_true, if_false, Bool.false_and]
  have hcond : (decide ((pyStrip ([btick, 'f', 'o', 'o', '(', ')'] ++ [btick])).head? = some btick) &&
      decide ((pyStrip ([btick, 'f', 'o', 'o', '(', ')'] ++ [btick])).getLast? = some btick)) = true := by
    decide
  rw [if_pos hcond]
  decide

/-- Witness for C7 at a concrete element. -/
theorem c7_witness :
    convert_pre id
      { inFigure := false, parentName := some "div".data,
        code := some { classes := [], text := (btick :: "foo()".data) ++ [btick] },
        prevSibling := none }
      "ignored".data = "\n```\nfoo()\n```\n".data :=
  c7_convert_pre_backtick id _ _ [] rfl (by decide) rfl

/-! ### `convert_figure` -/

/-- A `<figcaption>`: class attribute, optional `<cite>` text, `get_text()`. -/
structure CaptionEl where
  classes : List (List Char)
  cite : Option (List Char)
  text : List Char
deriving DecidableEq, Repr

/-- The `<pre>` found by `el.find('pre')` inside a figure; `childCount`
models `len(tag.contents)` for the `if not code_block:` truthiness test. -/
structure PreBlock where
  text : List Char
  childCount : Nat
deriving DecidableEq, Repr

/-- A `<figure>` element as seen by `convert_figure`.  An empty
`<figcaption>` tag (falsy in BeautifulSoup) is modelled as `none`. -/
structure FigEl where
  figcaption : Option CaptionEl
  pre : Option PreBlock
deriving DecidableEq, Repr

/-- Python string truthiness of an optional string. -/
def truthyStr : Option (List Char) → Bool
  | some f => !f.isEmpty
  | none => false

/-- `convert_figure` from `ZigMarkdownConverter`. -/
def convert_figure (el : FigEl) (text : List Char) : List Char :=
  match el.pre with
  | none => text
  | some cb =>
    if cb.childCount = 0 then text
    else
      let langFile : List Char × Option (List Char) :=
        match el.figcaption with
        | none => ("zig".data, none)
        | some cap =>
          if cap.classes.contains "zig-cap".data then ("zig".data, cap.cite)
          else if cap.classes.contains "shell-cap".data then ("shell".data, none)
          else if cap.classes.contains "c-cap".data then ("c".data, none)
          else if cap.classes.contains "peg-cap".data then ("peg".data, none)
          else if cap.classes.contains "javascript-cap".data then
            ("javascript".data, none)
          else ("zig".data, none)
      let header : List Char :=
        if truthyStr langFile.2 then
          "**".data ++ btick :: langFile.2.getD [] ++ btick :: ":**\n".data
        else
          match el.figcaption with
          | some cap =>
            if (pyStrip cap.text).isEmpty then []
            else "**".data ++ pyStrip cap.text ++ ":**\n".data
          | none => []
      '\n' :: header ++ "```".data ++ langFile.1 ++ '\n' :: cb.text
        ++ "\n```\n\n".data

/-- **C10.**  A figure containing no `<pre>` block renders as the
already-rendered text unchanged: no fence, language tag or label is
added. -/
theorem c10_convert_figure_no_pre (el : FigEl) (text : List Char)
    (h : el.pre = none) : convert_figure el text = text := by
  unfold convert_figure
  rw [h]

/-- Witness for C10 at a concrete element. -/
theorem c10_witness :
    convert_figure { figcaption := none, pre := none } "Some caption text.".data
      = "Some caption text.".data :=
  c10_convert_figure_no_pre _ _ rfl

/-! ## `extract_section_content` (claim C1)

The document is modelled as the list of top-level sibling nodes.  A node
carries a key (object identity), its tag name, its `id` attribute, and the
hrefs of anchors contained in it (for the last-resort `h1`-with-anchor
lookup).  `soup.find(...)` over top-level siblings is the first node
matching the predicate; `.extract()` removes the claimed contiguous run. -/

structure HNode where
  key : Nat
  name : List Char
  id : Option (List Char)
  anchorHrefs : List (List Char)
deriving DecidableEq, Repr

/-- First node satisfying `p`, returned with the siblings before and after
it (the shape `soup.find` + sibling walking needs). -/
def splitAtHeader (p : HNode → Bool) : List HNode →
    Option (List HNode × HNode × List HNode)
  | [] => none
  | n :: rest =>
    if p n then some ([], n, rest)
    else (splitAtHeader p rest).map (fun r => (n :: r.1, r.2.1, r.2.2))

/-- The header-lookup fallback chain of `extract_section_content`:
`h2#id`, `h2#toc-id`, `h1#id`, `h1#toc-id`, then an `h1` containing an
anchor with href `#id` or `#toc-id`. -/
def findHeaderSplit (doc : List HNode) (sid : List Char) :
    Option (List HNode × HNode × List HNode) :=
  match splitAtHeader (fun n => n.name == "h2".data && n.id == some sid) doc with
  | some r => some r
  | none =>
    match splitAtHeader
        (fun n => n.name == "h2".data && n.id == some ("toc-".data ++ sid)) doc with
    | some r => some r
    | none =>
      match splitAtHeader (fun n => n.name == "h1".data && n.id == some sid) doc with
      | some r => some r
      | none =>
        match splitAtHeader
            (fun n => n.name == "h1".data && n.id == some ("toc-".data ++ sid)) doc with
        | some r => some r
        | none =>
          splitAtHeader
            (fun n => n.name == "h1".data &&
              (n.anchorHrefs.contains ('#' :: sid) ||
               n.anchorHrefs.contains ('#' :: ("toc-".data ++ sid)))) doc

/-- `extract_section_content`: find the section header, walk forward
through following siblings until the next header of the same level (or an
`h1`), then detach the collected run.  Returns the extracted content and
the document after extraction. -/
def extract_section_content (doc : List HNode) (sid : List Char) :
    Option (List HNode) × List HNode :=
  match findHeaderSplit doc sid with
  | none => (none, doc)
  | some r =>
    let header := r.2.1
    let body := r.2.2.takeWhile
      (fun s => !(s.name == header.name || s.name == "h1".data))
    (some (header :: body), r.1 ++ r.2.2.drop body.length)

/-- The extraction sequence performed by `convert_html_to_markdown`'s
per-section loop: each TOC id is extracted in turn from the progressively
mutated document; a failed extraction leaves the document unchanged and
the loop continues. -/
def extractAll : List HNode → List (List Char) → List (List HNode) × List HNode
  | doc, [] => ([], doc)
  | doc, sid :: rest =>
    match extract_section_content doc sid with
    | (none, doc') => extractAll doc' rest
    | (some sec, doc') =>
      let r := extractAll doc' rest
      (sec :: r.1, r.2)

/-- A top-level content node: neither an `h1` nor an `h2` header. -/
def isContentNode (n : HNode) : Bool :=
  !(n.name == "h1".data) && !(n.name == "h2".data)

/-- The document segment from the first section heading onward: heading of
section 1, its body, heading of section 2, its body, ... -/
def blocksOf : List (HNode × List HNode) → List HNode
  | [] => []
  | (h, b) :: rest => h :: (b ++ blocksOf rest)

theorem contentNode_ne_h2 {n : HNode} (h : isContentNode n = true) :
    (n.name == "h2".data) = false := by
  unfold isContentNode at h
  simp only [Bool.and_eq_true, Bool.not_eq_true'] at h
  exact h.2

theorem contentNode_ne_h1 {n : HNode} (h : isContentNode n = true) :
    (n.name == "h1".data) = false := by
  unfold isContentNode at h
  simp only [Bool.and_eq_true, Bool.not_eq_true'] at h
  exact h.1

theorem splitAtHeader_append {p : HNode → Bool} {pre : List HNode}
    (hpre : ∀ n ∈ pre, p n = false) {h : HNode} (hh : p h = true)
    (t : List HNode) : splitAtHeader p (pre ++ h :: t) = some (pre, h, t) := by
  induction pre with
  | nil =>
    simp only [List.nil_append]
    unfold splitAtHeader
    rw [if_pos hh]
  | cons a pre ih =>
    have ha : p a = false := hpre a (List.mem_cons_self a pre)
    simp only [List.cons_append]
    unfold splitAtHeader
    rw [if_neg (by simp [ha])]
    rw [ih (fun n hn => hpre n (List.mem_cons_of_mem a hn))]
    rfl

theorem takeWhile_append_of_stop {α : Type} {q : α → Bool} {b z : List α}
    (hb : ∀ n ∈ b, q n = true)
    (hz : ∀ d, z.head? = some d → q d = false) :
    (b ++ z).takeWhile q = b := by
  induction b with
  | nil =>
    simp only [List.nil_append]
    cases z with
    | nil => rfl
    | cons d r =>
      rw [List.takeWhile_cons_of_neg]
      simp [hz d rfl]
  | cons a b ih =>
    simp only [List.cons_append]
    rw [List.takeWhile_cons_of_pos (hb a (List.mem_cons_self a b))]
    rw [ih (fun n hn => hb n (List.mem_cons_of_mem a hn))]

/-- One step of the extraction: on a well-formed document the current
section is found at the first header, its body is the run of content
nodes up to the next `h2`, and extraction removes exactly that run. -/
theorem extract_step {pre b : List HNode} {h : HNode} {a : List Char}
    {rest : List (HNode × List HNode)}
    (hpre : ∀ n ∈ pre, isContentNode n = true)
    (hhname : h.name = "h2".data) (hhid : h.id = some a)
    (hb : ∀ n ∈ b, isContentNode n = true)
    (hrest : ∀ p ∈ rest, p.1.name = "h2".data) :
    extract_section_content (pre ++ h :: (b ++ blocksOf rest)) a
      = (some (h :: b), pre ++ blocksOf rest) := by
  have hsplit : findHeaderSplit (pre ++ h :: (b ++ blocksOf rest)) a
      = some (pre, h, b ++ blocksOf rest) := by
    unfold findHeaderSplit
    rw [splitAtHeader_append
      (fun n hn => by simp [contentNode_ne_h2 (hpre n hn)])
      (by simp [hhname, hhid]) _]
  unfold extract_section_content
  rw [hsplit]
  have hbody : (b ++ blocksOf rest).takeWhile
      (fun s => !(s.name == h.name || s.name == "h1".data)) = b := by
    apply takeWhile_append_of_stop
    · intro n hn
      simp [contentNode_ne_h2 (hb n hn), contentNode_ne_h1 (hb n hn), hhname]
    · intro d hd
      cases rest with
      | nil => simp [blocksOf] at hd
      | cons q qs =>
        obtain ⟨qh, qb⟩ := q
        simp only [blocksOf, List.head?_cons, Option.some.injEq] at hd
        have : qh.name = "h2".data := hrest (qh, qb) (List.mem_cons_self _ _)
        subst hd
        simp [this, hhname]
  simp only [hbody]
  rw [List.drop_left]

/-- The conversion loop's extraction sequence on a well-formed document
returns exactly the per-section runs and leaves only the prefix. -/
theorem extractAll_blocks {pre : List HNode}
    (hpre : ∀ n ∈ pre, isContentNode n = true) :
    ∀ (secs : List (HNode × List HNode)) (tocIds : List (List Char)),
      (∀ p ∈ secs, p.1.name = "h2".data ∧ ∀ n ∈ p.2, isContentNode n = true) →
      secs.map (fun p => p.1.id) = tocIds.map some →
      extractAll (pre ++ blocksOf secs) tocIds
        = (secs.map (fun p => p.1 :: p.2), pre) := by
  intro secs
  induction secs with
  | nil =>
    intro tocIds hsec hid
    cases tocIds with
    | nil => simp [blocksOf, extractAll]
    | cons a as => simp at hid
  | cons q rest ih =>
    obtain ⟨h, b⟩ := q
    intro tocIds hsec hid
    cases tocIds with
    | nil => simp at hid
    | cons a as =>
      simp only [List.map_cons, List.cons.injEq] at hid
      have hstep := extract_step hpre
        (hsec (h, b) (List.mem_cons_self _ _)).1 hid.1
        (hsec (h, b) (List.mem_cons_self _ _)).2
        (fun p hp => (hsec p (List.mem_cons_of_mem _ hp)).1)
      simp only [blocksOf]
      rw [extractAll, hstep]
      dsimp only
      rw [ih as (fun p hp => hsec p (List.mem_cons_of_mem _ hp)) hid.2]
      simp

theorem flatten_map_cons (secs : List (HNode × List HNode)) :
    (secs.map (fun p => p.1 :: p.2)).flatten = blocksOf secs := by
  induction secs with
  | nil => simp [blocksOf]
  | cons q rest ih =>
    obtain ⟨h, b⟩ := q
    simp only [blocksOf, List.map_cons, List.flatten_cons, ih]
    simp

/-- **C1.**  Section extraction is a lossless, duplicate-free partition.
For a document `pre ++ blocksOf secs` whose nodes before the first
recognized heading are content nodes, whose section headings are `h2`
nodes carrying the TOC ids in order, and whose section bodies are content
nodes, running the conversion loop's extraction sequence over the TOC ids
yields exactly the per-section node runs, in document order; their
concatenation is the full run of top-level nodes from the first recognized
heading on (so every node lying between two recognized heading boundaries
is claimed), only the nodes before the first heading remain in the tree,
and when the document's nodes are distinct no node is claimed twice. -/
theorem c1_extract_partition (pre : List HNode)
    (secs : List (HNode × List HNode)) (tocIds : List (List Char))
    (hpre : ∀ n ∈ pre, isContentNode n = true)
    (hsec : ∀ p ∈ secs, p.1.name = "h2".data ∧ ∀ n ∈ p.2, isContentNode n = true)
    (hid : secs.map (fun p => p.1.id) = tocIds.map some) :
    extractAll (pre ++ blocksOf secs) tocIds
        = (secs.map (fun p => p.1 :: p.2), pre) ∧
      (extractAll (pre ++ blocksOf secs) tocIds).1.flatten = blocksOf secs ∧
      ((pre ++ blocksOf secs).Nodup →
        (extractAll (pre ++ blocksOf secs) tocIds).1.flatten.Nodup) := by
  have hmain := extractAll_blocks hpre secs tocIds hsec hid
  refine ⟨hmain, ?_, ?_⟩
  · rw [hmain]
    exact flatten_map_cons secs
  · intro hnd
    rw [hmain]
    have h2 : (blocksOf secs).Nodup := (List.nodup_append.mp hnd).2.1
    rw [flatten_map_cons secs]
    exact h2

/-- Witness for C1 at a concrete two-section document with a leading
content node and a trailing body node. -/
theorem c1_witness :
    extractAll
      ([⟨0, "p".data, none, []⟩] ++
        blocksOf [(⟨1, "h2".data, some "A".data, []⟩, [⟨2, "p".data, none, []⟩]),
                  (⟨3, "h2".data, some "B".data, []⟩, [⟨4, "div".data, none, []⟩])])
      ["A".data, "B".data]
      = ([[⟨1, "h2".data, some "A".data, []⟩, ⟨2, "p".data, none, []⟩],
          [⟨3, "h2".data, some "B".data, []⟩, ⟨4, "div".data, none, []⟩]],
         [⟨0, "p".data, none, []⟩]) :=
  (c1_extract_partition _ _ _ (by decide) (by decide) (by decide)).1

/-! ## `fix_internal_links` (claims C5, C8, C9)

The substitution `re.sub(r'\[(.*?)\]\((#[^\)]+)\)', replace_link, content)`
is embedded as a scanner.  `matchLinkAux` reproduces the lazy group
`(.*?)` (which cannot cross a newline) with its backtracking: at each
position it first tries to close the link (`](#...)`, with `[^\)]+`
nonempty), otherwise the character joins the link text. -/

/-- Try to match `](#<run>)` at the current position, where `<run>` is a
nonempty run of non-`)` characters.  Returns the anchor group (with its
`#`) and the rest after the closing parenthesis. -/
def tryCloseLink : List Char → Option (List Char × List Char)
  | ']' :: '(' :: '#' :: r =>
    let run := r.takeWhile (· ≠ ')')
    if run.isEmpty then none
    else
      let after := r.drop run.length
      if after.head? = some ')' then some ('#' :: run, after.tail)
      else none
  | _ => none

theorem dropWhile_eq_drop_len (p : Char → Bool) (r : List Char) :
    r.drop ((r.takeWhile p).length) = r.dropWhile p := by
  have hdw := List.drop_left (r.takeWhile p) (r.dropWhile p)
  rw [List.takeWhile_append_dropWhile] at hdw
  exact hdw

theorem tryCloseLink_decomp : ∀ {s : List Char} {ar : List Char × List Char},
    tryCloseLink s = some ar →
    ∃ run, ar.1 = '#' :: run ∧ ')' ∉ run ∧
      s = ']' :: '(' :: '#' :: (run ++ ')' :: ar.2) := by
  intro s ar h
  rw [tryCloseLink.eq_def] at h
  split at h
  · rename_i r
    dsimp only at h
    by_cases hrun : (r.takeWhile (· ≠ ')')).isEmpty
    · rw [if_pos hrun] at h
      exact absurd h (by simp)
    · rw [if_neg hrun] at h
      rw [dropWhile_eq_drop_len] at h
      cases hdw : r.dropWhile (· ≠ ')') with
      | nil => rw [hdw] at h; exact absurd h (by simp)
      | cons d tl =>
        rw [hdw] at h
        by_cases hd : d = ')'
        · subst hd
          rw [if_pos (by simp)] at h
          simp only [List.tail_cons, Option.some.injEq] at h
          refine ⟨r.takeWhile (· ≠ ')'), ?_, ?_, ?_⟩
          · rw [← h]
          · intro hmem
            have := List.mem_takeWhile_imp hmem
            simp at this
          · rw [← h]
            dsimp only
            have hr : r = r.takeWhile (· ≠ ')') ++ ')' :: tl := by
              conv_lhs => rw [← List.takeWhile_append_dropWhile (fun x => decide (x ≠ ')')) r]
              rw [hdw]
            conv_lhs => rw [hr]
        · rw [if_neg (by simp [hd])] at h
          exact absurd h (by simp)
  · exact absurd h (by simp)

theorem tryCloseLink_rest_len {s : List Char} {ar : List Char × List Char}
    (h : tryCloseLink s = some ar) : ar.2.length < s.length := by
  obtain ⟨run, _, _, hs⟩ := tryCloseLink_decomp h
  rw [hs]
  simp only [List.length_cons, List.length_append]
  omega

/-- The regex body after the opening `[`: returns (link text, anchor group,
rest after the match) for the leftmost completion, or `none`. -/
def matchLinkAux : List Char → Option (List Char × List Char × List Char)
  | [] => none
  | c :: r =>
    match tryCloseLink (c :: r) with
    | some ar => some ([], ar.1, ar.2)
    | none =>
      if c = '\n' then none
      else (matchLinkAux r).map (fun tar => (c :: tar.1, tar.2.1, tar.2.2))

theorem matchLinkAux_rest_len :
    ∀ (s : List Char) (tar : List Char × List Char × List Char),
      matchLinkAux s = some tar → tar.2.2.length < s.length := by
  intro s
  induction s with
  | nil => intro tar h; exact absurd h (by simp [matchLinkAux])
  | cons c r ih =>
    intro tar h
    unfold matchLinkAux at h
    cases htc : tryCloseLink (c :: r) with
    | some ar =>
      rw [htc] at h
      simp only [Option.some.injEq] at h
      have := tryCloseLink_rest_len htc
      rw [← h]
      exact this
    | none =>
      rw [htc] at h
      by_cases hc : c = '\n'
      · rw [if_pos hc] at h; exact absurd h (by simp)
      · rw [if_neg hc] at h
        cases hm : matchLinkAux r with
        | none => rw [hm] at h; exact absurd h (by simp)
        | some tar' =>
          rw [hm] at h
          simp only [Option.map_some', Option.some.injEq] at h
          have := ih tar' hm
          rw [← h]
          simp only [List.length_cons]
          omega

/-- `section_id.startswith('toc-')` normalization. -/
def stripToc (sid : List Char) : List Char :=
  if leadsWith "toc-".data sid then sid.drop 4 else sid

/-- The SectionMap loop: first entry (in TOC insertion order) whose id
equals the normalized anchor or is a prefix of it wins. -/
def lookupTarget (sid : List Char) : List (List Char × List Char) →
    Option (List Char)
  | [] => none
  | (k, f) :: rest =>
    if k == sid || leadsWith k sid then some f else lookupTarget sid rest

/-- `replace_link` from `fix_internal_links`.  `t` is the link text group,
`anchor` the anchor group (including `#`). -/
def replace_link (t anchor cur : List Char)
    (smap : List (List Char × List Char)) : List Char :=
  if leadsWith "http".data anchor then
    '[' :: t ++ ']' :: '(' :: anchor ++ [')']
  else if anchor.head? = some '#' then
    let sid := stripToc (anchor.drop 1)
    match lookupTarget sid smap with
    | some f =>
      if !f.isEmpty && !(f == cur) then
        '[' :: t ++ ']' :: '(' :: (f ++ '#' :: sid ++ [')'])
      else '[' :: t ++ ']' :: '(' :: '#' :: sid ++ [')']
    | none => '[' :: t ++ ']' :: '(' :: '#' :: sid ++ [')']
  else '[' :: t ++ ']' :: '(' :: anchor ++ [')']

/-- The `re.sub` scan: at each `[` try the link pattern; on a match emit
the replacement and resume after the match, otherwise copy the character. -/
def fixLinksGo (cur : List Char) (smap : List (List Char × List Char)) :
    List Char → List Char
  | [] => []
  | '[' :: r =>
    match h : matchLinkAux r with
    | some tar => replace_link tar.1 tar.2.1 cur smap ++ fixLinksGo cur smap tar.2.2
    | none => '[' :: fixLinksGo cur smap r
  | c :: r => c :: fixLinksGo cur smap r
termination_by s => s.length
decreasing_by
  · simp only [List.length_cons]
    exact Nat.lt_succ_of_lt (matchLinkAux_rest_len _ _ h)
  · simp
  · simp

/-- `fix_internal_links(content, current_file, section_map)`. -/
def fix_internal_links (content cur : List Char)
    (smap : List (List Char × List Char)) : List Char :=
  fixLinksGo cur smap content

/-! ### Step lemmas for the link scanner -/

theorem fixLinksGo_nil (cur : List Char) (smap : List (List Char × List Char)) :
    fixLinksGo cur smap [] = [] := by
  rw [fixLinksGo]

theorem fixLinksGo_open_some {cur smap r}
    {tar : List Char × List Char × List Char} (h : matchLinkAux r = some tar) :
    fixLinksGo cur smap ('[' :: r)
      = replace_link tar.1 tar.2.1 cur smap ++ fixLinksGo cur smap tar.2.2 := by
  rw [fixLinksGo]
  split
  · rename_i tar' h'
    rw [h] at h'
    injection h' with h''
    rw [h'']
  · rename_i h'
    rw [h] at h'
    exact absurd h' (by simp)

theorem fixLinksGo_open_none {cur smap r} (h : matchLinkAux r = none) :
    fixLinksGo cur smap ('[' :: r) = '[' :: fixLinksGo cur smap r := by
  rw [fixLinksGo]
  split
  · rename_i tar' h'
    rw [h] at h'
    exact absurd h' (by simp)
  · rfl

theorem fixLinksGo_cons {cur smap} {c : Char} (r : List Char) (hc : c ≠ '[') :
    fixLinksGo cur smap (c :: r) = c :: fixLinksGo cur smap r := by
  rw [fixLinksGo.eq_def]
  split
  · rename_i heq
    simp at heq
  · rename_i r1 heq
    injection heq with h1 _
    exact absurd h1 hc
  · rename_i c' r' hne heq
    injection heq with h1 h2
    rw [← h1, ← h2]

theorem tryCloseLink_ne {c : Char} {r : List Char} (hc : c ≠ ']') :
    tryCloseLink (c :: r) = none := by
  rw [tryCloseLink.eq_def]
  split
  · rename_i r1 heq
    injection heq with h1 _
    exact absurd h1 hc
  · rfl

theorem matchLinkAux_none : ∀ {s : List Char}, ']' ∉ s → matchLinkAux s = none := by
  intro s
  induction s with
  | nil => intro _; rfl
  | cons c r ih =>
    intro h
    have hc : c ≠ ']' := fun he => h (he ▸ List.mem_cons_self c r)
    unfold matchLinkAux
    rw [tryCloseLink_ne hc]
    by_cases hcn : c = '\n'
    · rw [if_pos hcn]
    · rw [if_neg hcn, ih (fun hm => h (List.mem_cons_of_mem c hm))]
      rfl

/-- A successful leftmost match: with a clean link text and a nonempty
anchor run, the scanner matches `t` as the text group and `#a` as the
anchor group. -/
theorem matchLinkAux_close : ∀ {t : List Char} {a rest : List Char},
    ']' ∉ t → '\n' ∉ t → a ≠ [] → ')' ∉ a →
    matchLinkAux (t ++ ']' :: '(' :: '#' :: (a ++ ')' :: rest))
      = some (t, '#' :: a, rest) := by
  intro t
  induction t with
  | nil =>
    intro a rest _ _ ha0 ha1
    simp only [List.nil_append]
    have htc : tryCloseLink (']' :: '(' :: '#' :: (a ++ ')' :: rest))
        = some ('#' :: a, rest) := by
      simp only [tryCloseLink]
      have hrun : (a ++ ')' :: rest).takeWhile (· ≠ ')') = a := by
        apply takeWhile_append_of_stop
        · intro n hn
          simp only [decide_eq_true_eq]
          exact fun he => ha1 (he ▸ hn)
        · intro d hd
          simp only [List.head?_cons, Option.some.injEq] at hd
          simp [← hd]
      rw [hrun]
      rw [if_neg (by simp [List.isEmpty_iff, ha0])]
      rw [List.drop_left]
      simp
    unfold matchLinkAux
    rw [htc]
  | cons c t' ih =>
    intro a rest ht1 ht2 ha0 ha1
    have hc1 : c ≠ ']' := fun he => ht1 (he ▸ List.mem_cons_self _ _)
    have hc2 : c ≠ '\n' := fun he => ht2 (he ▸ List.mem_cons_self _ _)
    simp only [List.cons_append]
    unfold matchLinkAux
    rw [tryCloseLink_ne hc1]
    rw [if_neg hc2]
    rw [ih (fun hm => ht1 (List.mem_cons_of_mem c hm))
      (fun hm => ht2 (List.mem_cons_of_mem c hm)) ha0 ha1]
    rfl

/-- No match when the only `]` is followed by `(` but not `#`. -/
theorem matchLinkAux_none_of_mid : ∀ {t u : List Char},
    ']' ∉ t → ']' ∉ u → u.head? ≠ some '#' →
    matchLinkAux (t ++ ']' :: '(' :: u) = none := by
  intro t
  induction t with
  | nil =>
    intro u _ hu hhead
    simp only [List.nil_append]
    unfold matchLinkAux
    have htc : tryCloseLink (']' :: '(' :: u) = none := by
      rw [tryCloseLink.eq_def]
      split
      · rename_i r1 heq
        injection heq with _ heq2
        injection heq2 with _ heq3
        exact absurd (by rw [heq3]; rfl) hhead
      · rfl
    rw [htc]
    rw [if_neg (by decide)]
    have hnotu : ']' ∉ '(' :: u := by
      intro hm
      rcases List.mem_cons.mp hm with h | h
      · exact absurd h.symm (by decide)
      · exact hu h
    rw [matchLinkAux_none hnotu]
    rfl
  | cons c t' ih =>
    intro u ht hu hhead
    have hc1 : c ≠ ']' := fun he => ht (he ▸ List.mem_cons_self _ _)
    simp only [List.cons_append]
    unfold matchLinkAux
    rw [tryCloseLink_ne hc1]
    by_cases hcn : c = '\n'
    · rw [if_pos hcn]
    · rw [if_neg hcn]
      rw [ih (fun hm => ht (List.mem_cons_of_mem c hm)) hu hhead]
      rfl

/-- The scanner is the identity on text with no `[`. -/
theorem fixLinksGo_id_of_no_open {cur : List Char}
    {smap : List (List Char × List Char)} :
    ∀ {s : List Char}, '[' ∉ s → fixLinksGo cur smap s = s := by
  intro s
  induction s with
  | nil => intro _; exact fixLinksGo_nil cur smap
  | cons c r ih =>
    intro h
    have hc : c ≠ '[' := fun he => h (he ▸ List.mem_cons_self c r)
    rw [fixLinksGo_cons r hc, ih (fun hm => h (List.mem_cons_of_mem c hm))]

/-- The scanner is the identity on text with no `]` (no link can close). -/
theorem fixLinksGo_id_of_no_close {cur : List Char}
    {smap : List (List Char × List Char)} :
    ∀ {s : List Char}, ']' ∉ s → fixLinksGo cur smap s = s := by
  intro s
  induction s with
  | nil => intro _; exact fixLinksGo_nil cur smap
  | cons c r ih =>
    intro h
    have hr : ']' ∉ r := fun hm => h (List.mem_cons_of_mem c hm)
    by_cases hc : c = '['
    · subst hc
      rw [fixLinksGo_open_none (matchLinkAux_none hr), ih hr]
    · rw [fixLinksGo_cons r hc, ih hr]

/-- The scanner is the identity on `t ++ "](" ++ u` when neither side
contains `]` and `u` does not start with `#`. -/
theorem fixLinksGo_id_mid {cur : List Char} {smap : List (List Char × List Char)}
    {u : List Char} (hu : ']' ∉ u) (hhead : u.head? ≠ some '#') :
    ∀ {t : List Char}, ']' ∉ t →
      fixLinksGo cur smap (t ++ ']' :: '(' :: u) = t ++ ']' :: '(' :: u := by
  intro t
  induction t with
  | nil =>
    intro _
    simp only [List.nil_append]
    rw [fixLinksGo_cons _ (by decide), fixLinksGo_cons _ (by decide),
      fixLinksGo_id_of_no_close hu]
  | cons c t' ih =>
    intro ht
    have ht' : ']' ∉ t' := fun hm => ht (List.mem_cons_of_mem c hm)
    simp only [List.cons_append]
    by_cases hco : c = '['
    · subst hco
      rw [fixLinksGo_open_none (matchLinkAux_none_of_mid ht' hu hhead)]
      rw [ih ht']
    · rw [fixLinksGo_cons _ hco, ih ht']

/-! ### `replace_link` and `lookupTarget` facts -/

theorem lookupTarget_cons_pos {sid k f : List Char}
    {rest : List (List Char × List Char)}
    (h : (k == sid || leadsWith k sid) = true) :
    lookupTarget sid ((k, f) :: rest) = some f := by
  unfold lookupTarget
  rw [if_pos h]

theorem lookupTarget_cons_neg {sid k f : List Char}
    {rest : List (List Char × List Char)}
    (h : (k == sid || leadsWith k sid) = false) :
    lookupTarget sid ((k, f) :: rest) = lookupTarget sid rest := by
  conv_lhs => rw [lookupTarget.eq_def]
  simp only [h, Bool.false_eq_true, if_false]

theorem lookupTarget_append_skip (sid : List Char) :
    ∀ (M₁ tail : List (List Char × List Char)),
      (∀ p ∈ M₁, (p.1 == sid || leadsWith p.1 sid) = false) →
      lookupTarget sid (M₁ ++ tail) = lookupTarget sid tail := by
  intro M₁
  induction M₁ with
  | nil => intro tail _; rfl
  | cons p M ih =>
    intro tail hM
    obtain ⟨k, f⟩ := p
    simp only [List.cons_append]
    rw [lookupTarget_cons_neg (hM (k, f) (List.mem_cons_self _ _))]
    exact ih tail (fun q hq => hM q (List.mem_cons_of_mem _ hq))

theorem lookupTarget_mem : ∀ {smap : List (List Char × List Char)}
    {sid f : List Char}, lookupTarget sid smap = some f → ∃ k, (k, f) ∈ smap := by
  intro smap
  induction smap with
  | nil => intro sid f h; exact absurd h (by simp [lookupTarget])
  | cons p rest ih =>
    intro sid f h
    obtain ⟨k, g⟩ := p
    unfold lookupTarget at h
    split at h
    · injection h with h1
      exact ⟨k, by rw [h1]; exact List.mem_cons_self _ _⟩
    · obtain ⟨k', hk'⟩ := ih h
      exact ⟨k', List.mem_cons_of_mem _ hk'⟩

/-- Evaluation of `replace_link` on an in-page anchor `#a`. -/
theorem replace_link_hash (t a cur : List Char)
    (smap : List (List Char × List Char)) :
    replace_link t ('#' :: a) cur smap =
      (match lookupTarget (stripToc a) smap with
       | some f =>
         if !f.isEmpty && !(f == cur) then
           '[' :: t ++ ']' :: '(' :: (f ++ '#' :: stripToc a ++ [')'])
         else '[' :: t ++ ']' :: '(' :: '#' :: stripToc a ++ [')']
       | none => '[' :: t ++ ']' :: '(' :: '#' :: stripToc a ++ [')']) := by
  unfold replace_link
  have hhttp : leadsWith "http".data ('#' :: a) = false := rfl
  simp only [hhttp, Bool.false_eq_true, if_false]
  rw [if_pos (show ('#' :: a).head? = some '#' from rfl)]
  rfl

theorem replace_link_hash_some {t a cur f : List Char}
    {smap : List (List Char × List Char)}
    (h : lookupTarget (stripToc a) smap = some f) :
    replace_link t ('#' :: a) cur smap =
      if !f.isEmpty && !(f == cur) then
        '[' :: t ++ ']' :: '(' :: (f ++ '#' :: stripToc a ++ [')'])
      else '[' :: t ++ ']' :: '(' :: '#' :: stripToc a ++ [')'] := by
  rw [replace_link_hash, h]

theorem replace_link_hash_none {t a cur : List Char}
    {smap : List (List Char × List Char)}
    (h : lookupTarget (stripToc a) smap = none) :
    replace_link t ('#' :: a) cur smap =
      '[' :: t ++ ']' :: '(' :: '#' :: stripToc a ++ [')'] := by
  rw [replace_link_hash, h]

/-- **C5.**  With SectionMap `{"Values": "02-values.md"}`, the link
`[t](#toc-Values)` rewrites to `[t](02-values.md#Values)` from any file
other than `02-values.md`, and stays `[t](#Values)` inside
`02-values.md` itself (the legacy `toc-` prefix is stripped either way). -/
theorem c5_toc_values_rewrite (F : List Char) :
    (F ≠ "02-values.md".data →
      fix_internal_links "[t](#toc-Values)".data F
          [("Values".data, "02-values.md".data)]
        = "[t](02-values.md#Values)".data) ∧
    fix_internal_links "[t](#toc-Values)".data "02-values.md".data
        [("Values".data, "02-values.md".data)]
      = "[t](#Values)".data := by
  have hm : matchLinkAux ('t' :: ']' :: '(' :: '#' :: ("toc-Values".data ++ ')' :: []))
      = some (['t'], '#' :: "toc-Values".data, []) := by
    have := @matchLinkAux_close ['t'] "toc-Values".data []
      (by decide) (by decide) (by decide) (by decide)
    simpa using this
  have hrun : ∀ cur, fix_internal_links "[t](#toc-Values)".data cur
      [("Values".data, "02-values.md".data)]
      = replace_link ['t'] ('#' :: "toc-Values".data) cur
          [("Values".data, "02-values.md".data)] := by
    intro cur
    unfold fix_internal_links
    rw [show "[t](#toc-Values)".data
      = '[' :: 't' :: ']' :: '(' :: '#' :: ("toc-Values".data ++ ')' :: []) from by decide]
    rw [fixLinksGo_open_some hm]
    dsimp only
    rw [fixLinksGo_nil]
    simp
  have hst : stripToc "toc-Values".data = "Values".data := by decide
  have hlk : lookupTarget "Values".data [("Values".data, "02-values.md".data)]
      = some "02-values.md".data := by decide
  have hlk' : lookupTarget (stripToc "toc-Values".data)
      [("Values".data, "02-values.md".data)] = some "02-values.md".data := by
    rw [hst]; exact hlk
  constructor
  · intro hF
    rw [hrun F, replace_link_hash_some hlk']
    have hcond : (!("02-values.md".data.isEmpty)
        && !("02-values.md".data == F)) = true := by
      have hne : ("02-values.md".data == F) = false :=
        beq_eq_false_iff_ne.mpr (fun he => hF he.symm)
      rw [hne]
      rfl
    rw [if_pos hcond]
    rw [hst]
    decide
  · rw [hrun _, replace_link_hash_some hlk']
    rw [if_neg (by decide)]
    rw [hst]
    decide

/-- Witness for C5 at a concrete current file. -/
theorem c5_witness :
    fix_internal_links "[t](#toc-Values)".data "01-introduction.md".data
        [("Values".data, "02-values.md".data)]
      = "[t](02-values.md#Values)".data :=
  (c5_toc_values_rewrite "01-introduction.md".data).1 (by decide)

/-- **C9.**  Anchor resolution scans the SectionMap in TOC insertion order
and the first entry whose id equals the normalized anchor or is a prefix
of it wins: when an earlier id `k₁` is a prefix of a later id `k₂`, an
anchor naming `k₂` exactly resolves to the earlier entry's file `f₁`, and
the rewriter emits a link into `f₁`. -/
theorem c9_lookup_insertion_order
    (M₁ : List (List Char × List Char)) (k₁ k₂ f₁ f₂ F : List Char)
    (rest : List (List Char × List Char))
    (hM₁ : ∀ p ∈ M₁, (p.1 == k₂ || leadsWith p.1 k₂) = false)
    (hpre : leadsWith k₁ k₂ = true)
    (hk2 : k₂ ≠ []) (hk2p : ')' ∉ k₂)
    (hk2t : leadsWith "toc-".data k₂ = false)
    (hf1 : f₁ ≠ []) (hf1F : (f₁ == F) = false) :
    lookupTarget k₂ (M₁ ++ (k₁, f₁) :: (k₂, f₂) :: rest) = some f₁ ∧
    fix_internal_links ('[' :: 'x' :: ']' :: '(' :: '#' :: (k₂ ++ [')'])) F
        (M₁ ++ (k₁, f₁) :: (k₂, f₂) :: rest)
      = '[' :: 'x' :: ']' :: '(' :: (f₁ ++ '#' :: k₂ ++ [')']) := by
  have hlk : lookupTarget k₂ (M₁ ++ (k₁, f₁) :: (k₂, f₂) :: rest) = some f₁ := by
    rw [lookupTarget_append_skip k₂ M₁ _ hM₁]
    exact lookupTarget_cons_pos (by rw [hpre]; simp)
  refine ⟨hlk, ?_⟩
  have hmm : matchLinkAux ('x' :: ']' :: '(' :: '#' :: (k₂ ++ [')']))
      = some (['x'], '#' :: k₂, []) := by
    have := @matchLinkAux_close ['x'] k₂ []
      (by decide) (by decide) hk2 hk2p
    simpa using this
  unfold fix_internal_links
  rw [fixLinksGo_open_some hmm]
  dsimp only
  rw [fixLinksGo_nil]
  have hst : stripToc k₂ = k₂ := by
    unfold stripToc
    simp only [hk2t, Bool.false_eq_true, if_false]
  rw [replace_link_hash_some (by rw [hst]; exact hlk)]
  have hfe : f₁.isEmpty = false := by
    cases f₁ with
    | nil => exact absurd rfl hf1
    | cons a l => rfl
  rw [if_pos (by rw [hfe, hf1F]; rfl)]
  rw [hst]
  simp

/-- Witness for C9: "Values" precedes "Values-extra" in the map, so an
anchor `#Values-extra` resolves to 02-values.md. -/
theorem c9_witness :
    lookupTarget "Values-extra".data
        ([] ++ ("Values".data, "02-values.md".data)
          :: ("Values-extra".data, "07-extra.md".data) :: []) = some "02-values.md".data ∧
    fix_internal_links
        ('[' :: 'x' :: ']' :: '(' :: '#' :: ("Values-extra".data ++ [')']))
        "01-intro.md".data
        ([] ++ ("Values".data, "02-values.md".data)
          :: ("Values-extra".data, "07-extra.md".data) :: [])
      = '[' :: 'x' :: ']' :: '(' :: ("02-values.md".data ++ '#' :: "Values-extra".data ++ [')']) :=
  c9_lookup_insertion_order [] _ _ _ _ _ [] (by simp) (by decide) (by decide)
    (by decide) (by decide) (by decide) (by decide)

/-! ### Idempotence of the rewriter (claim C8) -/

/-- **C8 counterexample.**  `fix_internal_links` is not idempotent: on
`[[x](#toc-a)](#toc-a)` with map `{"a": "f.md"}` from `g.md`, the first
pass rewrites the inner anchor to `f.md#a`, which exposes the outer
`](#toc-a)` to the second pass; the second pass rewrites again. -/
theorem c8_counterexample :
    fix_internal_links
        (fix_internal_links "[[x](#toc-a)](#toc-a)".data "g.md".data
          [("a".data, "f.md".data)])
        "g.md".data [("a".data, "f.md".data)]
      ≠ fix_internal_links "[[x](#toc-a)](#toc-a)".data "g.md".data
          [("a".data, "f.md".data)] := by
  have hpass1 : fix_internal_links "[[x](#toc-a)](#toc-a)".data "g.md".data
      [("a".data, "f.md".data)] = "[[x](f.md#a)](#toc-a)".data := by
    unfold fix_internal_links
    rw [(by decide : "[[x](#toc-a)](#toc-a)".data = '[' :: "[x](#toc-a)](#toc-a)".data)]
    rw [fixLinksGo_open_some (by decide : matchLinkAux "[x](#toc-a)](#toc-a)".data
      = some ("[x".data, '#' :: "toc-a".data, "](#toc-a)".data))]
    dsimp only
    rw [fixLinksGo_id_of_no_open (by decide)]
    decide
  have hpass2 : fix_internal_links "[[x](f.md#a)](#toc-a)".data "g.md".data
      [("a".data, "f.md".data)] = "[[x](f.md#a)](f.md#a)".data := by
    unfold fix_internal_links
    rw [(by decide : "[[x](f.md#a)](#toc-a)".data = '[' :: "[x](f.md#a)](#toc-a)".data)]
    rw [fixLinksGo_open_some (by decide : matchLinkAux "[x](f.md#a)](#toc-a)".data
      = some ("[x](f.md#a)".data, '#' :: "toc-a".data, []))]
    dsimp only
    rw [fixLinksGo_nil]
    decide
  rw [hpass1, hpass2]
  decide

theorem stripToc_not_mem {a : List Char} {c : Char} (h : c ∉ a) :
    c ∉ stripToc a := by
  intro hmem
  unfold stripToc at hmem
  split at hmem
  · exact h (List.mem_of_mem_drop hmem)
  · exact h hmem

/-- **C8 (amended).**  `fix_internal_links` is not idempotent on arbitrary
content (see the counterexample), but on a single well-formed link
`[t](#a)` — link text free of `]` and newlines, anchor nonempty and free
of `)`/`]`, normalized anchor nonempty and not itself `toc-`-prefixed, and
map filenames nonempty and free of `#`/`]` — a link once rewritten is left
unchanged by a second pass. -/
theorem c8_fix_links_idem_single_link
    (t a F : List Char) (M : List (List Char × List Char))
    (ht1 : ']' ∉ t) (ht2 : '\n' ∉ t)
    (ha0 : a ≠ []) (ha1 : ')' ∉ a) (ha2 : ']' ∉ a)
    (hsid0 : stripToc a ≠ [])
    (hsid1 : leadsWith "toc-".data (stripToc a) = false)
    (hM : ∀ p ∈ M, p.2 ≠ [] ∧ '#' ∉ p.2 ∧ ']' ∉ p.2) :
    fix_internal_links
        (fix_internal_links ('[' :: (t ++ ']' :: '(' :: '#' :: (a ++ [')']))) F M) F M
      = fix_internal_links ('[' :: (t ++ ']' :: '(' :: '#' :: (a ++ [')']))) F M := by
  have hsidp : ')' ∉ stripToc a := stripToc_not_mem ha1
  have hsidb : ']' ∉ stripToc a := stripToc_not_mem ha2
  have hstrip2 : stripToc (stripToc a) = stripToc a := by
    set q := stripToc a with hq
    unfold stripToc
    simp only [hsid1, Bool.false_eq_true, if_false]
  have hrun : ∀ (b : List Char), b ≠ [] → ')' ∉ b → ']' ∉ b →
      fix_internal_links ('[' :: (t ++ ']' :: '(' :: '#' :: (b ++ [')']))) F M
        = replace_link t ('#' :: b) F M := by
    intro b hb0 hb1 hb2
    unfold fix_internal_links
    rw [fixLinksGo_open_some (matchLinkAux_close ht1 ht2 hb0 hb1)]
    dsimp only
    rw [fixLinksGo_nil]
    simp
  rw [hrun a ha0 ha1 ha2]
  cases hl : lookupTarget (stripToc a) M with
  | none =>
    rw [replace_link_hash_none hl]
    have hshape : ('[' :: t ++ ']' :: '(' :: '#' :: stripToc a ++ [')'])
        = '[' :: (t ++ ']' :: '(' :: '#' :: (stripToc a ++ [')'])) := by simp
    rw [hshape, hrun (stripToc a) hsid0 hsidp hsidb]
    rw [replace_link_hash_none (by rw [hstrip2]; exact hl), hstrip2]
    exact hshape
  | some f =>
    obtain ⟨k, hkmem⟩ := lookupTarget_mem hl
    obtain ⟨hfne, hfH, hfB⟩ := hM (k, f) hkmem
    dsimp only at hfne hfH hfB
    have hfe : f.isEmpty = false := by
      cases f with
      | nil => exact absurd rfl hfne
      | cons c fs => rfl
    rw [replace_link_hash_some hl]
    by_cases hfF : (f == F) = true
    · rw [if_neg (show ¬((!f.isEmpty && !(f == F)) = true) by
        rw [hfe, hfF]; decide)]
      have hshape : ('[' :: t ++ ']' :: '(' :: '#' :: stripToc a ++ [')'])
          = '[' :: (t ++ ']' :: '(' :: '#' :: (stripToc a ++ [')'])) := by simp
      rw [hshape, hrun (stripToc a) hsid0 hsidp hsidb]
      rw [replace_link_hash_some (by rw [hstrip2]; exact hl), hstrip2]
      rw [if_neg (show ¬((!f.isEmpty && !(f == F)) = true) by
        rw [hfe, hfF]; decide)]
      exact hshape
    · have hfF' : (f == F) = false := by
        cases hq : (f == F) with
        | false => rfl
        | true => exact absurd hq hfF
      rw [if_pos (by rw [hfe, hfF']; rfl)]
      -- second pass sees `[t](f#sid)` and finds no anchor-link match
      have hu1 : ']' ∉ (f ++ '#' :: stripToc a ++ [')']) := by
        intro hmem
        rcases List.mem_append.mp hmem with h | h
        · rcases List.mem_append.mp h with h2 | h2
          · exact hfB h2
          · rcases List.mem_cons.mp h2 with h3 | h3
            · exact absurd h3 (by decide)
            · exact hsidb h3
        · simp at h
      have hu2 : (f ++ '#' :: stripToc a ++ [')']).head? ≠ some '#' := by
        cases f with
        | nil => exact absurd rfl hfne
        | cons c fs =>
          simp only [List.cons_append, List.head?_cons]
          intro hc
          injection hc with hc2
          subst hc2
          exact hfH (List.mem_cons_self _ _)
      have hshape : ('[' :: t ++ ']' :: '(' :: (f ++ '#' :: stripToc a ++ [')']))
          = '[' :: (t ++ ']' :: '(' :: (f ++ '#' :: stripToc a ++ [')'])) := by simp
      rw [hshape]
      unfold fix_internal_links
      rw [fixLinksGo_open_none (matchLinkAux_none_of_mid ht1 hu1 hu2)]
      rw [fixLinksGo_id_mid hu1 hu2 ht1]

/-- Witness for C8 at a concrete link and map. -/
theorem c8_witness :
    fix_internal_links
        (fix_internal_links
          ('[' :: ("x".data ++ ']' :: '(' :: '#' :: ("Values".data ++ [')'])))
          "01-intro.md".data [("Values".data, "02-values.md".data)])
        "01-intro.md".data [("Values".data, "02-values.md".data)]
      = fix_internal_links
          ('[' :: ("x".data ++ ']' :: '(' :: '#' :: ("Values".data ++ [')'])))
          "01-intro.md".data [("Values".data, "02-values.md".data)] :=
  c8_fix_links_idem_single_link _ _ _ _ (by decide) (by decide) (by decide)
    (by decide) (by decide) (by decide) (by decide) (by decide)

/-! ## `clean_markdown` (claim C2)

```python
def clean_markdown(content: str) -> str:
    content = html.unescape(content)
    content = re.sub(r'\n{4,}', '\n\n\n', content)
    content = re.sub(r'```\s*\n\s*\n\s*`([^`]+)`\s*\n\s*\n\s*```', r'```\n\1\n```', content)
    content = re.sub(r'```\s*`([^`]+)`\s*```', r'`\1`', content)
    content = re.sub(r'([^\n])\n```', r'\1\n\n```', content)
    content = re.sub(r'```\n([^\n])', r'```\n\n\1', content)
    content = re.sub(r'\n{3,}(\* |\- |\d+\. )', r'\n\n\1', content)
    content = re.sub(r'^(#{1,6})\s*\[(.*?)\]\(#toc-.*?\)', r'\1 \2', content, flags=re.MULTILINE)
    return content.strip() + '\n'
```
-/

/-- Partial model of Python `html.unescape`: the named references `amp`,
`lt`, `gt`, `quot`, with and without the trailing semicolon, matching the
longest-prefix lookup `html.unescape` performs in the html5 table.  Other
references (numeric, remaining names) are left unchanged; text without `&`
is returned unchanged, as in Python. -/
def htmlUnescape : List Char → List Char
  | [] => []
  | c :: r =>
    if c = '&' then
      match r with
      | 'a' :: 'm' :: 'p' :: ';' :: r2 => '&' :: htmlUnescape r2
      | 'a' :: 'm' :: 'p' :: r2 => '&' :: htmlUnescape r2
      | 'l' :: 't' :: ';' :: r2 => '<' :: htmlUnescape r2
      | 'l' :: 't' :: r2 => '<' :: htmlUnescape r2
      | 'g' :: 't' :: ';' :: r2 => '>' :: htmlUnescape r2
      | 'g' :: 't' :: r2 => '>' :: htmlUnescape r2
      | 'q' :: 'u' :: 'o' :: 't' :: ';' :: r2 => '"' :: htmlUnescape r2
      | 'q' :: 'u' :: 'o' :: 't' :: r2 => '"' :: htmlUnescape r2
      | r2 => '&' :: htmlUnescape r2
    else c :: htmlUnescape r

/-- `re.sub(r'\n{4,}', '\n\n\n', ·)` as a streaming pass: `k` counts the
newlines already emitted in the current run; a run is capped at three. -/
def capNl : Nat → List Char → List Char
  | _, [] => []
  | k, c :: rest =>
    if c = '\n' then
      if k < 3 then '\n' :: capNl (k + 1) rest else capNl k rest
    else c :: capNl 0 rest

def rule_blank_lines (s : List Char) : List Char := capNl 0 s

/-- Matcher for ``` `` `\s*\n\s*\n\s*`([^`]+)`\s*\n\s*\n\s*` ``` `` at the
current position: both whitespace gaps must contain at least two newlines
and be followed by the literal backtick / fence.  Returns the replacement
`` ```\n\1\n``` `` and the number of characters consumed. -/
def matchR3 (s : List Char) : Option (List Char × Nat) :=
  match s with
  | '\x60' :: '\x60' :: '\x60' :: r =>
    let w1 := r.takeWhile isPySpace
    if w1.count '\n' < 2 then none
    else
      match r.drop w1.length with
      | '\x60' :: r2 =>
        let inner := r2.takeWhile (· ≠ '\x60')
        if inner.isEmpty then none
        else
          match r2.drop inner.length with
          | '\x60' :: r3 =>
            let w2 := r3.takeWhile isPySpace
            if w2.count '\n' < 2 then none
            else if leadsWith "```".data (r3.drop w2.length) then
              some ("```\n".data ++ inner ++ "\n```".data,
                3 + w1.length + 1 + inner.length + 1 + w2.length + 3)
            else none
          | _ => none
      | _ => none
  | _ => none

/-- Matcher for ``` `` `\s*`([^`]+)`\s*` ``` ``: a fenced block wrapping a
single inline span collapses to inline code `` `\1` ``. -/
def matchR4 (s : List Char) : Option (List Char × Nat) :=
  match s with
  | '\x60' :: '\x60' :: '\x60' :: r =>
    let w1 := r.takeWhile isPySpace
    match r.drop w1.length with
    | '\x60' :: r2 =>
      let inner := r2.takeWhile (· ≠ '\x60')
      if inner.isEmpty then none
      else
        match r2.drop inner.length with
        | '\x60' :: r3 =>
          let w2 := r3.takeWhile isPySpace
          if leadsWith "```".data (r3.drop w2.length) then
            some ('\x60' :: inner ++ ['\x60'],
              3 + w1.length + 1 + inner.length + 1 + w2.length + 3)
          else none
        | _ => none
    | _ => none
  | _ => none

/-- `re.sub` driver: at each position try the matcher; on success emit the
replacement and resume after the consumed span, otherwise copy one
character.  (The matchers always consume at least one character; `max k 1`
makes that explicit for termination.) -/
def applyRule (m : List Char → Option (List Char × Nat)) : List Char → List Char
  | [] => []
  | c :: r =>
    match m (c :: r) with
    | some p => p.1 ++ applyRule m ((c :: r).drop (max p.2 1))
    | none => c :: applyRule m r
termination_by s => s.length
decreasing_by
  · simp only [List.length_drop, List.length_cons]
    omega
  · simp

def rule_blank_wrap (s : List Char) : List Char := applyRule matchR3 s

def rule_double_wrap (s : List Char) : List Char := applyRule matchR4 s

/-- `re.sub(r'([^\n])\n```', r'\1\n\n```', ·)`. -/
def rule_fence_before : List Char → List Char
  | c :: '\n' :: '\x60' :: '\x60' :: '\x60' :: rest =>
    if c = '\n' then c :: rule_fence_before ('\n' :: '\x60' :: '\x60' :: '\x60' :: rest)
    else c :: '\n' :: '\n' :: '\x60' :: '\x60' :: '\x60' :: rule_fence_before rest
  | c :: rest => c :: rule_fence_before rest
  | [] => []

/-- `re.sub(r'```\n([^\n])', r'```\n\n\1', ·)`. -/
def rule_fence_after : List Char → List Char
  | '\x60' :: '\x60' :: '\x60' :: '\n' :: c :: rest =>
    if c = '\n' then '\x60' :: rule_fence_after ('\x60' :: '\x60' :: '\n' :: c :: rest)
    else '\x60' :: '\x60' :: '\x60' :: '\n' :: '\n' :: c :: rule_fence_after rest
  | c :: rest => c :: rule_fence_after rest
  | [] => []

/-- The list-marker group `(\* |\- |\d+\. )`. -/
def matchMarker (s : List Char) : Option (List Char × List Char) :=
  if leadsWith "* ".data s then some (['*', ' '], s.drop 2)
  else if leadsWith "- ".data s then some (['-', ' '], s.drop 2)
  else
    let ds := s.takeWhile Char.isDigit
    if ds.isEmpty then none
    else if leadsWith ". ".data (s.drop ds.length) then
      some (ds ++ ['.', ' '], s.drop (ds.length + 2))
    else none

theorem leadsWith_decomp : ∀ (w u : List Char), leadsWith w u = true →
    w ++ u.drop w.length = u := by
  intro w
  induction w with
  | nil => intro u _; simp
  | cons a w' ih =>
    intro u h
    cases u with
    | nil => simp [leadsWith] at h
    | cons b u' =>
      simp only [leadsWith, Bool.and_eq_true, beq_iff_eq] at h
      obtain ⟨hab, h'⟩ := h
      subst hab
      simp only [List.length_cons, List.drop_succ_cons, List.cons_append]
      rw [ih u' h']

theorem takeWhile_length_le {α : Type} (p : α → Bool) (l : List α) :
    (l.takeWhile p).length ≤ l.length := by
  induction l with
  | nil => simp
  | cons a l ih =>
    rw [List.takeWhile_cons]
    by_cases hp : p a = true
    · rw [if_pos hp]
      simp only [List.length_cons]
      omega
    · rw [if_neg hp]
      simp

theorem mem_takeWhile_pred {α : Type} {p : α → Bool} :
    ∀ {l : List α} {a : α}, a ∈ l.takeWhile p → p a = true := by
  intro l
  induction l with
  | nil => intro a h; simp [List.takeWhile] at h
  | cons b l ih =>
    intro a h
    rw [List.takeWhile_cons] at h
    by_cases hb : p b = true
    · rw [if_pos hb] at h
      rcases List.mem_cons.mp h with h1 | h2
      · rw [h1]; exact hb
      · exact ih h2
    · rw [if_neg hb] at h
      simp at h

theorem matchMarker_decomp {u : List Char} {m : List Char × List Char}
    (h : matchMarker u = some m) :
    m.1 ++ m.2 = u ∧ m.1 ≠ [] ∧ ∀ c ∈ m.1, c ≠ '\n' := by
  unfold matchMarker at h
  split at h
  · rename_i hlw
    injection h with h1
    rw [← h1]
    refine ⟨?_, by simp, by dsimp only; decide⟩
    simpa using leadsWith_decomp "* ".data u hlw
  · split at h
    · rename_i hlw
      injection h with h1
      rw [← h1]
      refine ⟨?_, by simp, by dsimp only; decide⟩
      simpa using leadsWith_decomp "- ".data u hlw
    · dsimp only at h
      split at h
      · exact absurd h (by simp)
      · split at h
        · rename_i hds hlw
          injection h with h1
          rw [← h1]
          refine ⟨?_, by simp, ?_⟩
          · dsimp only
            have hd1 := leadsWith_decomp ". ".data
              (u.drop (u.takeWhile Char.isDigit).length) hlw
            simp only [List.drop_drop] at hd1
            have h2 : ['.', ' '] ++
                u.drop ((u.takeWhile Char.isDigit).length + 2) =
                u.drop ((u.takeWhile Char.isDigit).length) := by
              simpa using hd1
            rw [List.append_assoc, h2, dropWhile_eq_drop_len,
              List.takeWhile_append_dropWhile]
          · intro c hc
            rcases List.mem_append.mp hc with h2 | h2
            · have hd := mem_takeWhile_pred h2
              intro he
              rw [he] at hd
              exact absurd hd (by decide)
            · intro he
              rw [he] at h2
              simp at h2
        · exact absurd h (by simp)

theorem matchMarker_len {u : List Char} {m : List Char × List Char}
    (h : matchMarker u = some m) : m.2.length < u.length := by
  obtain ⟨heq, hne, _⟩ := matchMarker_decomp h
  rw [← heq, List.length_append]
  cases hm : m.1 with
  | nil => exact absurd hm hne
  | cons a l => simp [hm]

/-- `re.sub(r'\n{3,}(\* |\- |\d+\. )', r'\n\n\1', ·)`: a run of three or
more newlines immediately followed by a list marker collapses to exactly
two newlines before the marker. -/
def rule_list_spacing : List Char → List Char
  | [] => []
  | c :: rest =>
    if c = '\n' then
      let run := rest.takeWhile (· = '\n')
      let tail := rest.drop run.length
      if 3 ≤ run.length + 1 then
        match hm : matchMarker tail with
        | some m => '\n' :: '\n' :: (m.1 ++ rule_list_spacing m.2)
        | none => '\n' :: (run ++ rule_list_spacing tail)
      else '\n' :: (run ++ rule_list_spacing tail)
    else c :: rule_list_spacing rest
termination_by s => s.length
decreasing_by
  · have h1 := matchMarker_len hm
    have h2 : tail.length ≤ rest.length := by
      simp only [tail, List.length_drop]
      omega
    simp only [List.length_cons]
    omega
  · simp only [tail, List.length_drop, List.length_cons]
    omega
  · simp only [tail, List.length_drop, List.length_cons]
    omega
  · simp

/-- Scanner for the heading pattern's tail `\[(.*?)\]\(#toc-.*?\)` after
the opening `[`: walks the (newline-free, lazy) link text looking for the
shortest completion `](#toc-` … `)`, returning the link text (group 2) and
the number of characters consumed (text, delimiters and anchor). -/
def findTocLink : List Char → Option (List Char × Nat)
  | [] => none
  | c :: r =>
    if leadsWith "](#toc-".data (c :: r) then
      let u := (c :: r).drop 7
      let v := u.takeWhile (fun x => x ≠ ')' && x ≠ '\n')
      match u.drop v.length with
      | ')' :: _ => some ([], 7 + v.length + 1)
      | _ =>
        if c = '\n' then none
        else (findTocLink r).map (fun p => (c :: p.1, p.2 + 1))
    else
      if c = '\n' then none
      else (findTocLink r).map (fun p => (c :: p.1, p.2 + 1))

/-- One attempt of `re.sub(r'^(#{1,6})\s*\[(.*?)\]\(#toc-.*?\)', r'\1 \2',
·, flags=re.MULTILINE)` at a line start: a run of one to six `#`, optional
whitespace, then a TOC link; replacement is the hashes, a space and the
link text. -/
def matchTocHead (s : List Char) : Option (List Char × Nat) :=
  let hs := s.takeWhile (· = '#')
  if hs.length < 1 || 6 < hs.length then none
  else
    let r1 := s.drop hs.length
    let w := r1.takeWhile isPySpace
    match r1.drop w.length with
    | '[' :: r2 =>
      match findTocLink r2 with
      | some p => some (hs ++ ' ' :: p.1, hs.length + w.length + 1 + p.2)
      | none => none
    | _ => none

/-- Driver for the multiline heading rule: `atStart` records whether the
current position begins a line (start of string or just after `\n`). -/
def r8go : Bool → List Char → List Char
  | _, [] => []
  | atStart, c :: r =>
    if atStart then
      match matchTocHead (c :: r) with
      | some p => p.1 ++ r8go false ((c :: r).drop (max p.2 1))
      | none => c :: r8go (c = '\n') r
    else c :: r8go (c = '\n') r
termination_by _ s => s.length
decreasing_by
  · simp only [List.length_drop, List.length_cons]
    omega
  · simp
  · simp

def rule_toc_links (s : List Char) : List Char := r8go true s

/-- Position `s` starts a `\n{3,}`-run followed by a list marker (the
situation rule 7 rewrites). -/
def listBadAt (s : List Char) : Bool :=
  decide (3 ≤ (s.takeWhile (· = '\n')).length) &&
    (matchMarker (s.dropWhile (· = '\n'))).isSome

/-- No suffix of `s` starts a rewritable list-spacing site. -/
def noListRun : List Char → Bool
  | [] => true
  | c :: r => !listBadAt (c :: r) && noListRun r

/-- `clean_markdown`: unescape, the seven regex passes in source order,
then `strip() + '\n'`. -/
def clean_markdown (content : List Char) : List Char :=
  pyStrip (rule_toc_links (rule_list_spacing (rule_fence_after
    (rule_fence_before (rule_double_wrap (rule_blank_wrap
      (rule_blank_lines (htmlUnescape content)))))))) ++ ['\n']

/-! Identity lemmas: each regex pass leaves strings without its trigger
characters unchanged. -/

set_option maxHeartbeats 1600000 in
theorem htmlUnescape_id : ∀ (s : List Char), '&' ∉ s → htmlUnescape s = s := by
  intro s
  induction s with
  | nil => intro _; rfl
  | cons c r ih =>
    intro h
    have hc : c ≠ '&' := by
      intro he
      rw [he] at h
      exact h (List.mem_cons_self _ _)
    have hr : '&' ∉ r := fun hx => h (List.mem_cons_of_mem c hx)
    rw [htmlUnescape.eq_def]
    dsimp only
    rw [if_neg hc, ih hr]

theorem matchR3_none (c : Char) (r : List Char) (h : c ≠ btick) :
    matchR3 (c :: r) = none := by
  unfold matchR3
  split
  · rename_i heq
    injection heq with h1 _
    exact absurd h1 h
  · rfl

theorem matchR4_none (c : Char) (r : List Char) (h : c ≠ btick) :
    matchR4 (c :: r) = none := by
  unfold matchR4
  split
  · rename_i heq
    injection heq with h1 _
    exact absurd h1 h
  · rfl

theorem applyRule_nil (m : List Char → Option (List Char × Nat)) :
    applyRule m [] = [] := by
  rw [applyRule.eq_def]

theorem applyRule_cons_none (m : List Char → Option (List Char × Nat))
    (c : Char) (r : List Char) (h : m (c :: r) = none) :
    applyRule m (c :: r) = c :: applyRule m r := by
  rw [applyRule.eq_def]
  dsimp only
  rw [h]

theorem applyRule_id (m : List Char → Option (List Char × Nat))
    (hm : ∀ c r, c ≠ btick → m (c :: r) = none) :
    ∀ s : List Char, btick ∉ s → applyRule m s = s := by
  intro s
  induction s with
  | nil => intro _; exact applyRule_nil m
  | cons c r ih =>
    intro h
    have hc : c ≠ btick := by
      intro he
      rw [he] at h
      exact h (List.mem_cons_self _ _)
    rw [applyRule_cons_none m c r (hm c r hc)]
    rw [ih (fun hx => h (List.mem_cons_of_mem c hx))]

theorem rule_blank_wrap_id (s : List Char) (h : btick ∉ s) :
    rule_blank_wrap s = s :=
  applyRule_id matchR3 (fun c r hc => matchR3_none c r hc) s h

theorem rule_double_wrap_id (s : List Char) (h : btick ∉ s) :
    rule_double_wrap s = s :=
  applyRule_id matchR4 (fun c r hc => matchR4_none c r hc) s h

theorem rule_fence_before_id : ∀ (s : List Char), btick ∉ s →
    rule_fence_before s = s := by
  intro s
  induction s with
  | nil => intro _; rfl
  | cons c r ih =>
    intro h
    rw [rule_fence_before.eq_def]
    split
    · rename_i heq
      exfalso
      apply h
      rw [heq]
      simp [btick]
    · rename_i c' rest hne heq
      injection heq with h1 h2
      rw [← h1, ← h2]
      rw [ih (fun hx => h (List.mem_cons_of_mem c hx))]
    · rename_i heq
      exact absurd heq (by simp)

theorem rule_fence_after_id : ∀ (s : List Char), btick ∉ s →
    rule_fence_after s = s := by
  intro s
  induction s with
  | nil => intro _; rfl
  | cons c r ih =>
    intro h
    rw [rule_fence_after.eq_def]
    split
    · rename_i heq
      exfalso
      apply h
      rw [heq]
      simp [btick]
    · rename_i c' rest hne heq
      injection heq with h1 h2
      rw [← h1, ← h2]
      rw [ih (fun hx => h (List.mem_cons_of_mem c hx))]
    · rename_i heq
      exact absurd heq (by simp)

theorem matchTocHead_none (s : List Char) (h : '[' ∉ s) :
    matchTocHead s = none := by
  unfold matchTocHead
  dsimp only
  split
  · rfl
  · split
    · rename_i r2 heq
      exfalso
      apply h
      have h1 : '[' ∈ (s.drop ((s.takeWhile (· = '#')).length)).drop
          (((s.drop ((s.takeWhile (· = '#')).length)).takeWhile
            isPySpace).length) := by
        rw [heq]
        exact List.mem_cons_self _ _
      exact List.mem_of_mem_drop (List.mem_of_mem_drop h1)
    · rfl

theorem r8go_nil (b : Bool) : r8go b [] = [] := by
  rw [r8go.eq_def]

theorem r8go_cons_false (c : Char) (r : List Char) :
    r8go false (c :: r) = c :: r8go (c = '\n') r := by
  rw [r8go.eq_def]
  rfl

theorem r8go_cons_none (c : Char) (r : List Char)
    (h : matchTocHead (c :: r) = none) :
    r8go true (c :: r) = c :: r8go (c = '\n') r := by
  rw [r8go.eq_def]
  dsimp only
  rw [h]
  rfl

theorem r8go_id : ∀ (s : List Char), '[' ∉ s → ∀ b, r8go b s = s := by
  intro s
  induction s with
  | nil => intro _ b; exact r8go_nil b
  | cons c r ih =>
    intro h b
    have hr : '[' ∉ r := fun hx => h (List.mem_cons_of_mem c hx)
    cases b with
    | false => rw [r8go_cons_false, ih hr]
    | true => rw [r8go_cons_none c r (matchTocHead_none _ h), ih hr]

theorem rule_toc_links_id (s : List Char) (h : '[' ∉ s) :
    rule_toc_links s = s :=
  r8go_id s h true

theorem r7_nil : rule_list_spacing [] = [] := by
  rw [rule_list_spacing.eq_def]

theorem r7_cons_ne (c : Char) (rest : List Char) (h : ¬c = '\n') :
    rule_list_spacing (c :: rest) = c :: rule_list_spacing rest := by
  rw [rule_list_spacing.eq_def]
  dsimp only
  rw [if_neg h]

theorem r7_nl_some (rest : List Char) {m : List Char × List Char}
    (h : matchMarker (rest.drop ((rest.takeWhile (· = '\n')).length)) = some m)
    (h3 : 3 ≤ (rest.takeWhile (· = '\n')).length + 1) :
    rule_list_spacing ('\n' :: rest)
      = '\n' :: '\n' :: (m.1 ++ rule_list_spacing m.2) := by
  rw [rule_list_spacing.eq_def]
  dsimp only
  rw [if_pos rfl, if_pos h3]
  split
  · rename_i m' heq
    rw [h] at heq
    injection heq with h1
    rw [h1]
  · rename_i heq
    rw [h] at heq
    exact absurd heq (by simp)

theorem r7_nl_none (rest : List Char)
    (h : matchMarker (rest.drop ((rest.takeWhile (· = '\n')).length)) = none) :
    rule_list_spacing ('\n' :: rest)
      = '\n' :: (rest.takeWhile (· = '\n')
          ++ rule_list_spacing (rest.drop ((rest.takeWhile (· = '\n')).length))) := by
  rw [rule_list_spacing.eq_def]
  dsimp only
  rw [if_pos rfl]
  by_cases h3 : 3 ≤ (rest.takeWhile (· = '\n')).length + 1
  · rw [if_pos h3]
    split
    · rename_i m' heq
      rw [h] at heq
      exact absurd heq (by simp)
    · rfl
  · rw [if_neg h3]

theorem r7_nl_small (rest : List Char)
    (h3 : ¬3 ≤ (rest.takeWhile (· = '\n')).length + 1) :
    rule_list_spacing ('\n' :: rest)
      = '\n' :: (rest.takeWhile (· = '\n')
          ++ rule_list_spacing (rest.drop ((rest.takeWhile (· = '\n')).length))) := by
  rw [rule_list_spacing.eq_def]
  dsimp only
  rw [if_pos rfl, if_neg h3]

theorem noListRun_tail {c : Char} {r : List Char}
    (h : noListRun (c :: r) = true) : noListRun r = true := by
  rw [noListRun] at h
  simp only [Bool.and_eq_true] at h
  exact h.2

theorem noListRun_head {c : Char} {r : List Char}
    (h : noListRun (c :: r) = true) : listBadAt (c :: r) = false := by
  rw [noListRun] at h
  simp only [Bool.and_eq_true, Bool.not_eq_true'] at h
  exact h.1

theorem noListRun_drop : ∀ (n : Nat) (s : List Char),
    noListRun s = true → noListRun (s.drop n) = true := by
  intro n
  induction n with
  | zero => intro s h; simpa using h
  | succ k ih =>
    intro s h
    cases s with
    | nil => simpa using h
    | cons c r =>
      rw [List.drop_succ_cons]
      exact ih r (noListRun_tail h)

theorem r7_eq_self_fuel : ∀ (n : Nat) (s : List Char), s.length ≤ n →
    noListRun s = true → rule_list_spacing s = s := by
  intro n
  induction n with
  | zero =>
    intro s hl _
    have : s = [] := List.eq_nil_of_length_eq_zero (Nat.le_zero.mp hl)
    rw [this]
    exact r7_nil
  | succ k ih =>
    intro s hl h
    cases s with
    | nil => exact r7_nil
    | cons c rest =>
      by_cases hc : c = '\n'
      · subst hc
        have hbad := noListRun_head h
        rw [listBadAt] at hbad
        simp only [Bool.and_eq_false_iff] at hbad
        have htw : ('\n' :: rest).takeWhile (· = '\n')
            = '\n' :: rest.takeWhile (· = '\n') := by
          rw [List.takeWhile_cons]
          simp
        have hdw : ('\n' :: rest).dropWhile (· = '\n')
            = rest.drop ((rest.takeWhile (· = '\n')).length) := by
          rw [List.dropWhile_cons]
          simp only [decide_True, if_true]
          exact (dropWhile_eq_drop_len _ rest).symm
        have hrest : noListRun (rest.drop ((rest.takeWhile (· = '\n')).length))
            = true := noListRun_drop _ _ (noListRun_tail h)
        have hrl : (rest.takeWhile (· = '\n')).length ≤ rest.length :=
          takeWhile_length_le _ rest
        have hgoal : rule_list_spacing ('\n' :: rest)
            = '\n' :: (rest.takeWhile (· = '\n')
                ++ rule_list_spacing (rest.drop
                  ((rest.takeWhile (· = '\n')).length))) := by
          rcases hbad with hb | hb
          · apply r7_nl_small
            rw [htw] at hb
            simp only [List.length_cons, decide_eq_false_iff_not] at hb
            omega
          · apply r7_nl_none
            rw [hdw] at hb
            exact Option.not_isSome_iff_eq_none.mp (by simp [hb])
        rw [hgoal]
        rw [ih _ (by
          simp only [List.length_cons] at hl
          simp only [List.length_drop]
          omega) hrest]
        rw [dropWhile_eq_drop_len, List.takeWhile_append_dropWhile]
      · rw [r7_cons_ne c rest hc]
        rw [ih rest (by simp only [List.length_cons] at hl; omega)
          (noListRun_tail h)]

theorem rule_list_spacing_id (s : List Char) (h : noListRun s = true) :
    rule_list_spacing s = s :=
  r7_eq_self_fuel s.length s le_rfl h

/-- On an input where unescaping is the only active pass (no backticks, no
brackets, short newline runs, no list-spacing site), `clean_markdown` is
unescape-then-strip-then-newline. -/
theorem clean_markdown_simple (x y : List Char) (hx : htmlUnescape x = y)
    (hb : btick ∉ y) (hl : '[' ∉ y) (hn : noListRun y = true)
    (hbl : rule_blank_lines y = y) :
    clean_markdown x = pyStrip y ++ ['\n'] := by
  unfold clean_markdown
  rw [hx, hbl, rule_blank_wrap_id y hb, rule_double_wrap_id y hb,
    rule_fence_before_id y hb, rule_fence_after_id y hb,
    rule_list_spacing_id y hn, rule_toc_links_id y hl]

/-- C2: `clean_markdown` is not idempotent.  `html.unescape` runs again on
the second pass, so the doubly-escaped entity text "&amp;amp;" loses one
escaping level per pass: one cleaning yields "&amp;\n", a second yields
"&\n". -/
theorem c2_counterexample :
    clean_markdown "&amp;amp;".data = "&amp;\n".data ∧
    clean_markdown (clean_markdown "&amp;amp;".data)
      ≠ clean_markdown "&amp;amp;".data := by
  have h1 : clean_markdown "&amp;amp;".data = "&amp;\n".data := by
    rw [clean_markdown_simple "&amp;amp;".data "&amp;".data (by decide)
      (by decide) (by decide) (by decide) (by decide)]
    decide
  have h2 : clean_markdown "&amp;\n".data = "&\n".data := by
    rw [clean_markdown_simple "&amp;\n".data "&\n".data (by decide)
      (by decide) (by decide) (by decide) (by decide)]
    decide
  refine ⟨h1, ?_⟩
  rw [h1, h2]
  decide

/-! Preservation machinery: character membership and newline-run shape of
each pass's output, needed to show the passes are inert on a second run
over already-cleaned text. -/

theorem capNl_mem : ∀ (s : List Char) (k : Nat) {a : Char},
    a ∈ capNl k s → a ∈ s := by
  intro s
  induction s with
  | nil =>
    intro k a h
    rw [capNl] at h
    exact h
  | cons c rest ih =>
    intro k a h
    rw [capNl] at h
    by_cases hc : c = '\n'
    · rw [if_pos hc] at h
      by_cases hk : k < 3
      · rw [if_pos hk] at h
        rcases List.mem_cons.mp h with h1 | h1
        · rw [h1, hc]
          exact List.mem_cons_self _ _
        · exact List.mem_cons_of_mem _ (ih (k + 1) h1)
      · rw [if_neg hk] at h
        exact List.mem_cons_of_mem _ (ih k h)
    · rw [if_neg hc] at h
      rcases List.mem_cons.mp h with h1 | h1
      · rw [h1]
        exact List.mem_cons_self _ _
      · exact List.mem_cons_of_mem _ (ih 0 h1)

theorem r7_mem_fuel : ∀ (n : Nat) (s : List Char), s.length ≤ n →
    ∀ {a : Char}, a ∈ rule_list_spacing s → a ∈ s := by
  intro n
  induction n with
  | zero =>
    intro s hl a h
    have hs : s = [] := List.eq_nil_of_length_eq_zero (Nat.le_zero.mp hl)
    rw [hs] at h ⊢
    rw [r7_nil] at h
    exact h
  | succ k ih =>
    intro s hl a h
    cases s with
    | nil =>
      rw [r7_nil] at h
      exact h
    | cons c rest =>
      by_cases hc : c = '\n'
      · subst hc
        simp only [List.length_cons] at hl
        by_cases h3 : 3 ≤ (rest.takeWhile (· = '\n')).length + 1
        · cases hmk : matchMarker
            (rest.drop ((rest.takeWhile (· = '\n')).length)) with
          | some m =>
            rw [r7_nl_some rest hmk h3] at h
            obtain ⟨hdec, _, _⟩ := matchMarker_decomp hmk
            rcases List.mem_cons.mp h with h1 | h1
            · rw [h1]
              exact List.mem_cons_self _ _
            rcases List.mem_cons.mp h1 with h2 | h2
            · rw [h2]
              exact List.mem_cons_self _ _
            rcases List.mem_append.mp h2 with h4 | h4
            · apply List.mem_cons_of_mem
              have h5 : a ∈ m.1 ++ m.2 := List.mem_append.mpr (Or.inl h4)
              rw [hdec] at h5
              exact List.mem_of_mem_drop h5
            · have hm2len : m.2.length ≤ k := by
                have h5 := matchMarker_len hmk
                have h6 : (rest.drop
                    ((rest.takeWhile (· = '\n')).length)).length
                      ≤ rest.length := by
                  rw [List.length_drop]
                  omega
                omega
              have h7 := ih m.2 hm2len h4
              apply List.mem_cons_of_mem
              have h8 : a ∈ m.1 ++ m.2 := List.mem_append.mpr (Or.inr h7)
              rw [hdec] at h8
              exact List.mem_of_mem_drop h8
          | none =>
            rw [r7_nl_none rest hmk] at h
            rcases List.mem_cons.mp h with h1 | h1
            · rw [h1]
              exact List.mem_cons_self _ _
            rcases List.mem_append.mp h1 with h2 | h2
            · apply List.mem_cons_of_mem
              have h4 : a ∈ rest.takeWhile (· = '\n')
                  ++ rest.dropWhile (· = '\n') :=
                List.mem_append.mpr (Or.inl h2)
              rw [List.takeWhile_append_dropWhile] at h4
              exact h4
            · have h5 := ih _ (by rw [List.length_drop]; omega) h2
              exact List.mem_cons_of_mem _ (List.mem_of_mem_drop h5)
        · rw [r7_nl_small rest h3] at h
          rcases List.mem_cons.mp h with h1 | h1
          · rw [h1]
            exact List.mem_cons_self _ _
          rcases List.mem_append.mp h1 with h2 | h2
          · apply List.mem_cons_of_mem
            have h4 : a ∈ rest.takeWhile (· = '\n')
                ++ rest.dropWhile (· = '\n') :=
              List.mem_append.mpr (Or.inl h2)
            rw [List.takeWhile_append_dropWhile] at h4
            exact h4
          · have h5 := ih _ (by
              rw [List.length_drop]
              omega) h2
            exact List.mem_cons_of_mem _ (List.mem_of_mem_drop h5)
      · rw [r7_cons_ne c rest hc] at h
        rcases List.mem_cons.mp h with h1 | h1
        · rw [h1]
          exact List.mem_cons_self _ _
        · exact List.mem_cons_of_mem _
            (ih rest (by simp only [List.length_cons] at hl; omega) h1)

theorem r7_mem {s : List Char} {a : Char}
    (h : a ∈ rule_list_spacing s) : a ∈ s :=
  r7_mem_fuel s.length s le_rfl h

theorem revDropRev_eq_take (p : Char → Bool) (a : List Char) :
    ∃ m, (a.reverse.dropWhile p).reverse = a.take m := by
  set tw := a.reverse.takeWhile p with htw
  set dw := a.reverse.dropWhile p with hdw
  have hsplit : tw ++ dw = a.reverse := List.takeWhile_append_dropWhile _ _
  have hdrop : dw = a.reverse.drop tw.length := by
    conv_rhs => rw [← hsplit]
    rw [List.drop_left]
  refine ⟨a.reverse.length - tw.length, ?_⟩
  rw [hdrop, List.reverse_drop]
  simp

theorem pyStrip_eq_take (s : List Char) :
    ∃ m, pyStrip s = (s.dropWhile isPySpace).take m := by
  unfold pyStrip
  exact revDropRev_eq_take isPySpace (s.dropWhile isPySpace)

theorem pyStrip_mem {s : List Char} {a : Char} (h : a ∈ pyStrip s) :
    a ∈ s := by
  obtain ⟨m, hm⟩ := pyStrip_eq_take s
  rw [hm] at h
  exact (List.dropWhile_sublist _).subset (List.take_subset _ _ h)

theorem pyStrip_getLast (s : List Char) (d : Char)
    (h : (pyStrip s).getLast? = some d) : isPySpace d = false := by
  unfold pyStrip at h
  rw [List.getLast?_reverse] at h
  exact dropWhile_head?_false _ _ _ h

/-- No run of four or more consecutive newlines; `k` newlines were already
seen immediately before the current position. -/
def nl4ok : Nat → List Char → Bool
  | _, [] => true
  | k, c :: r =>
    if c = '\n' then decide (k < 3) && nl4ok (k + 1) r else nl4ok 0 r

theorem capNl_eq_self : ∀ (s : List Char) (k : Nat),
    nl4ok k s = true → capNl k s = s := by
  intro s
  induction s with
  | nil => intro k _; rfl
  | cons c rest ih =>
    intro k h
    rw [nl4ok] at h
    rw [capNl]
    by_cases hc : c = '\n'
    · rw [if_pos hc] at h ⊢
      simp only [Bool.and_eq_true, decide_eq_true_eq] at h
      rw [if_pos h.1, ih (k + 1) h.2, hc]
    · rw [if_neg hc] at h ⊢
      rw [ih 0 h]

theorem nl4ok_mono : ∀ (s : List Char) (j k : Nat), j ≤ k →
    nl4ok k s = true → nl4ok j s = true := by
  intro s
  induction s with
  | nil => intro j k _ _; rfl
  | cons c r ih =>
    intro j k hjk h
    rw [nl4ok] at h ⊢
    by_cases hc : c = '\n'
    · rw [if_pos hc] at h ⊢
      simp only [Bool.and_eq_true, decide_eq_true_eq] at h ⊢
      exact ⟨by omega, ih (j + 1) (k + 1) (by omega) h.2⟩
    · rw [if_neg hc] at h ⊢
      exact h

theorem nl4ok_tail {c : Char} {r : List Char} {k : Nat}
    (h : nl4ok k (c :: r) = true) : nl4ok 0 r = true := by
  rw [nl4ok] at h
  by_cases hc : c = '\n'
  · rw [if_pos hc] at h
    simp only [Bool.and_eq_true] at h
    exact nl4ok_mono r 0 (k + 1) (by omega) h.2
  · rw [if_neg hc] at h
    exact h

theorem nl4ok_capNl : ∀ (s : List Char) (k : Nat), k ≤ 3 →
    nl4ok k (capNl k s) = true := by
  intro s
  induction s with
  | nil => intro k _; rfl
  | cons c rest ih =>
    intro k hk
    rw [capNl]
    by_cases hc : c = '\n'
    · rw [if_pos hc]
      by_cases hlt : k < 3
      · rw [if_pos hlt, nl4ok, if_pos rfl]
        simp only [Bool.and_eq_true, decide_eq_true_eq]
        exact ⟨hlt, ih (k + 1) (by omega)⟩
      · rw [if_neg hlt]
        exact ih k hk
    · rw [if_neg hc, nl4ok, if_neg hc]
      exact ih 0 (by omega)

theorem nl4ok_drop : ∀ (n : Nat) (s : List Char),
    nl4ok 0 s = true → nl4ok 0 (s.drop n) = true := by
  intro n
  induction n with
  | zero => intro s h; simpa using h
  | succ m ih =>
    intro s h
    cases s with
    | nil => simpa using h
    | cons c r =>
      rw [List.drop_succ_cons]
      exact ih r (nl4ok_tail h)

theorem nl4ok_take : ∀ (s : List Char) (n k : Nat),
    nl4ok k s = true → nl4ok k (s.take n) = true := by
  intro s
  induction s with
  | nil => intro n k h; simpa using h
  | cons c r ih =>
    intro n k h
    cases n with
    | zero => rfl
    | succ m =>
      rw [List.take_succ_cons]
      rw [nl4ok] at h ⊢
      by_cases hc : c = '\n'
      · rw [if_pos hc] at h ⊢
        simp only [Bool.and_eq_true] at h ⊢
        exact ⟨h.1, ih m (k + 1) h.2⟩
      · rw [if_neg hc] at h ⊢
        exact ih m 0 h

theorem nl4ok_pyStrip {s : List Char} (h : nl4ok 0 s = true) :
    nl4ok 0 (pyStrip s) = true := by
  obtain ⟨m, hm⟩ := pyStrip_eq_take s
  rw [hm]
  apply nl4ok_take _ m 0
  rw [← dropWhile_eq_drop_len]
  exact nl4ok_drop _ s h

theorem nl4ok_append_nl : ∀ (s : List Char) (k : Nat), nl4ok k s = true →
    (s = [] → k < 3) → s.getLast? ≠ some '\n' →
    nl4ok k (s ++ ['\n']) = true := by
  intro s
  induction s with
  | nil =>
    intro k _ hk _
    rw [List.nil_append, nl4ok, if_pos rfl]
    simp only [Bool.and_eq_true, decide_eq_true_eq]
    exact ⟨hk rfl, rfl⟩
  | cons c r ih =>
    intro k h hk hlast
    rw [List.cons_append]
    rw [nl4ok] at h ⊢
    by_cases hc : c = '\n'
    · rw [if_pos hc] at h ⊢
      simp only [Bool.and_eq_true] at h ⊢
      refine ⟨h.1, ?_⟩
      have hrne : r ≠ [] := by
        intro hre
        apply hlast
        rw [hre, hc]
        rfl
      apply ih (k + 1) h.2 (fun hre => absurd hre hrne)
      intro hlr
      apply hlast
      cases r with
      | nil => exact absurd rfl hrne
      | cons d r' =>
        rw [List.getLast?_cons_cons]
        exact hlr
    · rw [if_neg hc] at h ⊢
      apply ih 0 h (fun _ => by omega)
      intro hlr
      cases r with
      | nil => simp at hlr
      | cons d r' =>
        apply hlast
        rw [List.getLast?_cons_cons]
        exact hlr

theorem nl4ok_any_k (X : List Char)
    (h : ∀ d, X.head? = some d → d ≠ '\n') (j k : Nat) :
    nl4ok j X = nl4ok k X := by
  cases X with
  | nil => rfl
  | cons d r =>
    have hd := h d rfl
    rw [nl4ok, nl4ok, if_neg hd, if_neg hd]

theorem nl4ok_append_nonl : ∀ (m X : List Char) (k : Nat),
    (∀ c ∈ m, c ≠ '\n') → m ≠ [] →
    nl4ok k (m ++ X) = nl4ok 0 X := by
  intro m
  induction m with
  | nil => intro X k _ hne; exact absurd rfl hne
  | cons d m' ih =>
    intro X k hm _
    rw [List.cons_append, nl4ok, if_neg (hm d (List.mem_cons_self _ _))]
    cases m' with
    | nil => rw [List.nil_append]
    | cons e m'' =>
      exact ih X 0 (fun c hc => hm c (List.mem_cons_of_mem d hc)) (by simp)

theorem nl4ok_run : ∀ (rest : List Char) (j : Nat),
    nl4ok j ('\n' :: rest) = true →
    j + 1 + (rest.takeWhile (· = '\n')).length ≤ 3 ∧
      nl4ok 0 (rest.drop ((rest.takeWhile (· = '\n')).length)) = true := by
  intro rest
  induction rest with
  | nil =>
    intro j h
    rw [nl4ok, if_pos rfl] at h
    simp only [Bool.and_eq_true, decide_eq_true_eq] at h
    constructor
    · simp only [List.takeWhile_nil, List.length_nil]
      omega
    · rfl
  | cons c r ih =>
    intro j h
    rw [nl4ok, if_pos rfl] at h
    simp only [Bool.and_eq_true, decide_eq_true_eq] at h
    by_cases hc : c = '\n'
    · subst hc
      obtain ⟨h1, h2⟩ := ih (j + 1) h.2
      rw [List.takeWhile_cons_of_pos (by simp)]
      constructor
      · simp only [List.length_cons]
        omega
      · rw [List.length_cons, List.drop_succ_cons]
        exact h2
    · rw [List.takeWhile_cons_of_neg (by simp [hc])]
      simp only [List.length_nil, List.drop_zero]
      constructor
      · omega
      · have h2 := h.2
        rw [nl4ok, if_neg hc] at h2
        rw [nl4ok, if_neg hc]
        exact h2

theorem nl4ok_build_run : ∀ (L j : Nat) (X : List Char), j + L ≤ 3 →
    nl4ok (j + L) X = true →
    nl4ok j (List.replicate L '\n' ++ X) = true := by
  intro L
  induction L with
  | zero => intro j X _ h; simpa using h
  | succ m ih =>
    intro j X hle h
    rw [List.replicate_succ, List.cons_append, nl4ok, if_pos rfl]
    simp only [Bool.and_eq_true, decide_eq_true_eq]
    refine ⟨by omega, ?_⟩
    apply ih (j + 1) X (by omega)
    have he : j + 1 + m = j + (m + 1) := by omega
    rw [he]
    exact h

theorem takeWhile_eq_replicate_nl (rest : List Char) :
    rest.takeWhile (· = '\n')
      = List.replicate ((rest.takeWhile (· = '\n')).length) '\n' := by
  induction rest with
  | nil => rfl
  | cons c r ih =>
    by_cases hc : c = '\n'
    · rw [List.takeWhile_cons_of_pos (by simp [hc])]
      rw [List.length_cons, List.replicate_succ, hc]
      exact congrArg (List.cons '\n') ih
    · rw [List.takeWhile_cons_of_neg (by simp [hc])]
      rfl

theorem r7_head_eq : ∀ (s : List Char),
    (rule_list_spacing s).head? = s.head? := by
  intro s
  cases s with
  | nil => rw [r7_nil]
  | cons c rest =>
    by_cases hc : c = '\n'
    · subst hc
      by_cases h3 : 3 ≤ (rest.takeWhile (· = '\n')).length + 1
      · cases hmk : matchMarker
          (rest.drop ((rest.takeWhile (· = '\n')).length)) with
        | some m => rw [r7_nl_some rest hmk h3]; rfl
        | none => rw [r7_nl_none rest hmk]; rfl
      · rw [r7_nl_small rest h3]; rfl
    · rw [r7_cons_ne c rest hc]; rfl

theorem r7_tail_head {rest : List Char} (d : Char)
    (hd : (rule_list_spacing
      (rest.drop ((rest.takeWhile (· = '\n')).length))).head? = some d) :
    d ≠ '\n' := by
  rw [r7_head_eq] at hd
  rw [dropWhile_eq_drop_len] at hd
  have := dropWhile_head?_false (· = '\n') rest d hd
  simpa using this

theorem r7_nl4ok_fuel : ∀ (n : Nat) (s : List Char), s.length ≤ n →
    nl4ok 0 s = true → nl4ok 0 (rule_list_spacing s) = true := by
  intro n
  induction n with
  | zero =>
    intro s hl _
    have hs : s = [] := List.eq_nil_of_length_eq_zero (Nat.le_zero.mp hl)
    rw [hs, r7_nil]
    rfl
  | succ k ih =>
    intro s hl h
    cases s with
    | nil => rw [r7_nil]; rfl
    | cons c rest =>
      simp only [List.length_cons] at hl
      by_cases hc : c = '\n'
      · subst hc
        obtain ⟨hrun, htail⟩ := nl4ok_run rest 0 h
        have htl : (rest.drop ((rest.takeWhile (· = '\n')).length)).length
            ≤ rest.length := by
          rw [List.length_drop]
          omega
        by_cases h3 : 3 ≤ (rest.takeWhile (· = '\n')).length + 1
        · cases hmk : matchMarker
            (rest.drop ((rest.takeWhile (· = '\n')).length)) with
          | some m =>
            rw [r7_nl_some rest hmk h3]
            obtain ⟨hdec, hne, hnonl⟩ := matchMarker_decomp hmk
            rw [nl4ok, if_pos rfl]
            simp only [Bool.and_eq_true, decide_eq_true_eq]
            refine ⟨by omega, ?_⟩
            rw [nl4ok, if_pos rfl]
            simp only [Bool.and_eq_true, decide_eq_true_eq]
            refine ⟨by omega, ?_⟩
            rw [nl4ok_append_nonl m.1 _ 2 hnonl hne]
            apply ih
            · have h5 := matchMarker_len hmk
              omega
            · have h7 : m.2 = (rest.drop
                  ((rest.takeWhile (· = '\n')).length)).drop m.1.length := by
                rw [← hdec, List.drop_left]
              rw [h7]
              exact nl4ok_drop _ _ htail
          | none =>
            rw [r7_nl_none rest hmk]
            nth_rewrite 1 [takeWhile_eq_replicate_nl rest]
            rw [← List.cons_append, ← List.replicate_succ]
            apply nl4ok_build_run _ 0 _ (by omega)
            rw [Nat.zero_add]
            rw [nl4ok_any_k _ (fun d hd => r7_tail_head d hd) _ 0]
            exact ih _ (by omega) htail
        · rw [r7_nl_small rest h3]
          nth_rewrite 1 [takeWhile_eq_replicate_nl rest]
          rw [← List.cons_append, ← List.replicate_succ]
          apply nl4ok_build_run _ 0 _ (by omega)
          rw [Nat.zero_add]
          rw [nl4ok_any_k _ (fun d hd => r7_tail_head d hd) _ 0]
          exact ih _ (by omega) htail
      · rw [r7_cons_ne c rest hc]
        rw [nl4ok, if_neg hc] at h ⊢
        exact ih rest (by omega) h

theorem r7_nl4ok {s : List Char} (h : nl4ok 0 s = true) :
    nl4ok 0 (rule_list_spacing s) = true :=
  r7_nl4ok_fuel s.length s le_rfl h

theorem lw_append : ∀ (w u v : List Char),
    leadsWith w u = true → leadsWith w (u ++ v) = true := by
  intro w
  induction w with
  | nil => intro u v _; rfl
  | cons a w' ih =>
    intro u v h
    cases u with
    | nil => simp [leadsWith] at h
    | cons b u' =>
      rw [leadsWith] at h
      rw [List.cons_append, leadsWith]
      simp only [Bool.and_eq_true] at h ⊢
      exact ⟨h.1, ih u' v h.2⟩

theorem lw_takeWhile (p : Char → Bool) : ∀ (w u : List Char),
    (∀ c ∈ w, p c = true) →
    leadsWith w u = leadsWith w (u.takeWhile p) := by
  intro w
  induction w with
  | nil => intro u _; rfl
  | cons a w' ih =>
    intro u hw
    cases u with
    | nil => rfl
    | cons b u' =>
      by_cases hb : p b = true
      · rw [List.takeWhile_cons_of_pos hb]
        rw [leadsWith, leadsWith]
        rw [← ih u' (fun c hc => hw c (List.mem_cons_of_mem a hc))]
      · have hab : (a == b) = false := by
          apply beq_eq_false_iff_ne.mpr
          intro he
          apply hb
          rw [← he]
          exact hw a (List.mem_cons_self _ _)
        rw [List.takeWhile_cons_of_neg hb]
        simp [leadsWith, hab]

theorem takeWhile_append_nl (p : Char → Bool) (hp : p '\n' = false) :
    ∀ (u : List Char), (u ++ ['\n']).takeWhile p = u.takeWhile p := by
  intro u
  induction u with
  | nil =>
    rw [List.nil_append]
    rw [List.takeWhile_cons_of_neg (by simp [hp])]
    rfl
  | cons b u' ih =>
    rw [List.cons_append]
    by_cases hb : p b = true
    · rw [List.takeWhile_cons_of_pos hb, List.takeWhile_cons_of_pos hb, ih]
    · rw [List.takeWhile_cons_of_neg hb, List.takeWhile_cons_of_neg hb]

theorem takeWhile_chain (p q : Char → Bool)
    (himp : ∀ a, q a = true → p a = true) :
    ∀ (u : List Char), (u.takeWhile p).takeWhile q = u.takeWhile q := by
  intro u
  induction u with
  | nil => rfl
  | cons c r ih =>
    by_cases hq : q c = true
    · have hp := himp c hq
      rw [List.takeWhile_cons_of_pos hp, List.takeWhile_cons_of_pos hq,
        List.takeWhile_cons_of_pos hq, ih]
    · by_cases hp : p c = true
      · rw [List.takeWhile_cons_of_pos hp, List.takeWhile_cons_of_neg hq,
          List.takeWhile_cons_of_neg hq]
      · rw [List.takeWhile_cons_of_neg hp, List.takeWhile_cons_of_neg hq]
        rfl

theorem takeWhile_append_sat (p : Char → Bool) : ∀ (ds u' : List Char),
    (∀ c ∈ ds, p c = true) →
    (ds ++ u').takeWhile p = ds ++ u'.takeWhile p := by
  intro ds
  induction ds with
  | nil => intro u' _; rfl
  | cons d ds' ih =>
    intro u' h
    rw [List.cons_append,
      List.takeWhile_cons_of_pos (h d (List.mem_cons_self _ _)),
      ih u' (fun c hc => h c (List.mem_cons_of_mem d hc)), List.cons_append]

theorem dropWhile_append_of_stop {α : Type} {q : α → Bool} :
    ∀ {b z : List α}, (∀ n ∈ b, q n = true) →
    (∀ d, z.head? = some d → q d = false) →
    (b ++ z).dropWhile q = z := by
  intro b
  induction b with
  | nil =>
    intro z _ hz
    rw [List.nil_append]
    cases z with
    | nil => rfl
    | cons d r =>
      rw [List.dropWhile_cons_of_neg]
      simp [hz d rfl]
  | cons a b' ih =>
    intro z hb hz
    rw [List.cons_append,
      List.dropWhile_cons_of_pos (hb a (List.mem_cons_self _ _))]
    exact ih (fun n hn => hb n (List.mem_cons_of_mem a hn)) hz

theorem mm_isSome_eq (u : List Char) :
    (matchMarker u).isSome
      = (leadsWith "* ".data u || leadsWith "- ".data u
          || (!(u.takeWhile Char.isDigit).isEmpty
              && leadsWith ". ".data
                (u.drop ((u.takeWhile Char.isDigit).length)))) := by
  unfold matchMarker
  dsimp only
  by_cases h1 : leadsWith "* ".data u = true
  · rw [if_pos h1, h1]
    rfl
  · have h1' : leadsWith "* ".data u = false := by simpa using h1
    rw [if_neg h1, h1']
    by_cases h2 : leadsWith "- ".data u = true
    · rw [if_pos h2, h2]
      rfl
    · have h2' : leadsWith "- ".data u = false := by simpa using h2
      rw [if_neg h2, h2']
      simp only [Bool.false_or]
      by_cases h3 : (u.takeWhile Char.isDigit).isEmpty = true
      · rw [if_pos h3, h3]
        rfl
      · have h3' : (u.takeWhile Char.isDigit).isEmpty = false := by
          simpa using h3
        rw [if_neg h3, h3']
        simp only [Bool.not_false, Bool.true_and]
        by_cases h4 : leadsWith ". ".data
            (u.drop ((u.takeWhile Char.isDigit).length)) = true
        · rw [if_pos h4, h4]
          rfl
        · have h4' : leadsWith ". ".data
              (u.drop ((u.takeWhile Char.isDigit).length)) = false := by
            simpa using h4
          rw [if_neg h4, h4']
          rfl

theorem mm_tw (u : List Char) :
    (matchMarker u).isSome
      = (matchMarker (u.takeWhile (· ≠ '\n'))).isSome := by
  rw [mm_isSome_eq, mm_isSome_eq]
  have hdig : ∀ c ∈ u.takeWhile Char.isDigit,
      (fun x => decide (x ≠ '\n')) c = true := by
    intro c hc
    have hd := mem_takeWhile_pred hc
    simp only [decide_eq_true_eq]
    intro he
    rw [he] at hd
    exact absurd hd (by decide)
  have hds : (u.takeWhile (· ≠ '\n')).takeWhile Char.isDigit
      = u.takeWhile Char.isDigit := by
    apply takeWhile_chain
    intro a ha
    simp only [decide_eq_true_eq]
    intro he
    rw [he] at ha
    exact absurd ha (by decide)
  have hsplit := takeWhile_append_sat (fun x => decide (x ≠ '\n'))
    (u.takeWhile Char.isDigit) (u.dropWhile Char.isDigit) hdig
  rw [List.takeWhile_append_dropWhile] at hsplit
  have hlhsdrop : (u.takeWhile (· ≠ '\n')).drop
      ((u.takeWhile Char.isDigit).length)
      = (u.dropWhile Char.isDigit).takeWhile (· ≠ '\n') := by
    rw [hsplit, List.drop_left]
  have hdw := dropWhile_eq_drop_len Char.isDigit u
  rw [hds, hlhsdrop, hdw]
  rw [← lw_takeWhile (fun x => decide (x ≠ '\n')) ". ".data
    (u.dropWhile Char.isDigit) (by decide)]
  rw [← lw_takeWhile (fun x => decide (x ≠ '\n')) "* ".data u (by decide)]
  rw [← lw_takeWhile (fun x => decide (x ≠ '\n')) "- ".data u (by decide)]

theorem mm_append_nl (u : List Char) :
    (matchMarker (u ++ ['\n'])).isSome = (matchMarker u).isSome := by
  rw [mm_tw (u ++ ['\n']), takeWhile_append_nl _ (by decide) u, ← mm_tw u]

theorem r7_takeWhile_fuel : ∀ (n : Nat) (s : List Char), s.length ≤ n →
    (rule_list_spacing s).takeWhile (· ≠ '\n')
      = s.takeWhile (· ≠ '\n') := by
  intro n
  induction n with
  | zero =>
    intro s hl
    have hs : s = [] := List.eq_nil_of_length_eq_zero (Nat.le_zero.mp hl)
    rw [hs, r7_nil]
  | succ k ih =>
    intro s hl
    cases s with
    | nil => rw [r7_nil]
    | cons c rest =>
      simp only [List.length_cons] at hl
      by_cases hc : c = '\n'
      · subst hc
        have hout : (rule_list_spacing ('\n' :: rest)).head? = some '\n' := by
          rw [r7_head_eq]
          rfl
        cases hr7 : rule_list_spacing ('\n' :: rest) with
        | nil =>
          rw [hr7] at hout
          simp at hout
        | cons d out' =>
          rw [hr7] at hout
          injection hout with hd
          rw [List.takeWhile_cons_of_neg (by simp [hd]),
            List.takeWhile_cons_of_neg (by simp)]
      · rw [r7_cons_ne c rest hc]
        rw [List.takeWhile_cons_of_pos (by simp [hc]),
          List.takeWhile_cons_of_pos (by simp [hc])]
        rw [ih rest (by omega)]

theorem mm_r7 (t : List Char) :
    (matchMarker (rule_list_spacing t)).isSome
      = (matchMarker t).isSome := by
  rw [mm_tw (rule_list_spacing t), r7_takeWhile_fuel t.length t le_rfl,
    ← mm_tw t]

theorem mm_some_append (w v : List Char)
    (h : (matchMarker w).isSome = true) :
    (matchMarker (w ++ v)).isSome = true := by
  rw [mm_isSome_eq] at h ⊢
  simp only [Bool.or_eq_true, Bool.and_eq_true] at h ⊢
  rcases h with (h1 | h2) | h3
  · exact Or.inl (Or.inl (lw_append _ w v h1))
  · exact Or.inl (Or.inr (lw_append _ w v h2))
  · obtain ⟨hds, hlw⟩ := h3
    right
    rw [dropWhile_eq_drop_len] at hlw
    cases hdwc : w.dropWhile Char.isDigit with
    | nil =>
      rw [hdwc] at hlw
      simp [leadsWith] at hlw
    | cons e es =>
      rw [hdwc] at hlw
      have he : e = '.' := by
        have hlw2 := hlw
        rw [leadsWith] at hlw2
        simp only [Bool.and_eq_true, beq_iff_eq] at hlw2
        exact hlw2.1.symm
      have hw : w = w.takeWhile Char.isDigit ++ (e :: es) := by
        rw [← hdwc, List.takeWhile_append_dropWhile]
      have hde : (w ++ v).takeWhile Char.isDigit
          = w.takeWhile Char.isDigit := by
        nth_rewrite 1 [hw]
        rw [List.append_assoc]
        rw [takeWhile_append_sat Char.isDigit _ _
          (fun c hc => mem_takeWhile_pred hc)]
        rw [List.cons_append, List.takeWhile_cons_of_neg
          (by rw [he]; decide)]
        rw [List.append_nil]
      rw [hde]
      refine ⟨hds, ?_⟩
      nth_rewrite 2 [hw]
      rw [List.append_assoc, List.drop_left]
      rw [List.cons_append]
      exact lw_append _ _ _ hlw

theorem badAt_append (u v : List Char) (h : listBadAt u = true) :
    listBadAt (u ++ v) = true := by
  rw [listBadAt] at h ⊢
  simp only [Bool.and_eq_true, decide_eq_true_eq] at h ⊢
  obtain ⟨h3, hsome⟩ := h
  have hne : u.dropWhile (· = '\n') ≠ [] := by
    intro he
    rw [he] at hsome
    exact absurd hsome (by decide)
  cases hdwc : u.dropWhile (· = '\n') with
  | nil => exact absurd hdwc hne
  | cons d ds =>
    have hd : decide (d = '\n') = false :=
      dropWhile_head?_false (· = '\n') u d (by rw [hdwc]; rfl)
    have hu : u = u.takeWhile (· = '\n') ++ (d :: ds) := by
      rw [← hdwc, List.takeWhile_append_dropWhile]
    have htw : (u ++ v).takeWhile (· = '\n') = u.takeWhile (· = '\n') := by
      nth_rewrite 1 [hu]
      rw [List.append_assoc]
      apply takeWhile_append_of_stop
      · intro n hn
        have hx := mem_takeWhile_pred hn
        simpa using hx
      · intro d' hd'
        simp only [List.cons_append, List.head?_cons,
          Option.some.injEq] at hd'
        rw [← hd']
        exact hd
    have hdwa : (u ++ v).dropWhile (· = '\n') = (d :: ds) ++ v := by
      nth_rewrite 1 [hu]
      rw [List.append_assoc]
      apply dropWhile_append_of_stop
      · intro n hn
        have hx := mem_takeWhile_pred hn
        simpa using hx
      · intro d' hd'
        simp only [List.cons_append, List.head?_cons,
          Option.some.injEq] at hd'
        rw [← hd']
        exact hd
    refine ⟨by rw [htw]; exact h3, ?_⟩
    rw [hdwa]
    apply mm_some_append
    rw [← hdwc]
    exact hsome

theorem noListRun_take : ∀ (s : List Char) (n : Nat),
    noListRun s = true → noListRun (s.take n) = true := by
  intro s
  induction s with
  | nil => intro n h; simpa using h
  | cons c r ih =>
    intro n h
    cases n with
    | zero => rfl
    | succ m =>
      rw [List.take_succ_cons, noListRun]
      simp only [Bool.and_eq_true, Bool.not_eq_true']
      constructor
      · by_cases hbad : listBadAt (c :: r.take m) = true
        · exfalso
          have hb2 : listBadAt ((c :: r.take m) ++ r.drop m) = true :=
            badAt_append _ _ hbad
          rw [List.cons_append, List.take_append_drop] at hb2
          have h1 := noListRun_head h
          rw [h1] at hb2
          exact Bool.false_ne_true hb2
        · simpa using hbad
      · exact ih m (noListRun_tail h)

theorem noListRun_pyStrip {s : List Char} (h : noListRun s = true) :
    noListRun (pyStrip s) = true := by
  obtain ⟨m, hm⟩ := pyStrip_eq_take s
  rw [hm]
  apply noListRun_take
  rw [← dropWhile_eq_drop_len]
  exact noListRun_drop _ s h

theorem getLast_mem_of_some : ∀ {α : Type} (l : List α) (a : α),
    l.getLast? = some a → a ∈ l := by
  intro α l
  induction l with
  | nil => intro a h; simp at h
  | cons b l' ih =>
    intro a h
    cases l' with
    | nil =>
      simp only [List.getLast?_singleton, Option.some.injEq] at h
      rw [h]
      exact List.mem_cons_self _ _
    | cons e l'' =>
      rw [List.getLast?_cons_cons] at h
      exact List.mem_cons_of_mem b (ih a h)

theorem getLast_some_of_ne_nil : ∀ {α : Type} (l : List α), l ≠ [] →
    ∃ a, l.getLast? = some a := by
  intro α l
  induction l with
  | nil => intro h; exact absurd rfl h
  | cons b l' ih =>
    intro _
    cases l' with
    | nil => exact ⟨b, by simp⟩
    | cons e l'' =>
      obtain ⟨a, ha⟩ := ih (by simp)
      exact ⟨a, by rw [List.getLast?_cons_cons]; exact ha⟩

theorem noListRun_append_nl : ∀ (s : List Char), noListRun s = true →
    s.getLast? ≠ some '\n' → noListRun (s ++ ['\n']) = true := by
  intro s
  induction s with
  | nil => intro _ _; decide
  | cons c r ih =>
    intro h hlast
    have hrlast : r.getLast? ≠ some '\n' ∨ r = [] := by
      cases r with
      | nil => exact Or.inr rfl
      | cons d r' =>
        left
        intro hx
        apply hlast
        rw [List.getLast?_cons_cons]
        exact hx
    rw [List.cons_append, noListRun]
    simp only [Bool.and_eq_true, Bool.not_eq_true']
    constructor
    · by_cases hc : c = '\n'
      · subst hc
        have hrne : r ≠ [] := by
          intro hre
          apply hlast
          rw [hre]
          decide
        have hrl : r.getLast? ≠ some '\n' := by
          rcases hrlast with h1 | h1
          · exact h1
          · exact absurd h1 hrne
        have hdwne : r.dropWhile (· = '\n') ≠ [] := by
          intro he
          have hr_eq : r = r.takeWhile (· = '\n') := by
            have h2 := List.takeWhile_append_dropWhile (· = '\n') r
            rw [he, List.append_nil] at h2
            exact h2.symm
          obtain ⟨d, hd⟩ := getLast_some_of_ne_nil r hrne
          have hdm := getLast_mem_of_some r d hd
          rw [hr_eq] at hdm
          have hdnl := mem_takeWhile_pred hdm
          simp only [decide_eq_true_eq] at hdnl
          rw [hdnl] at hd
          exact hrl hd
        have hb := noListRun_head h
        rw [listBadAt] at hb ⊢
        cases hdwc : r.dropWhile (· = '\n') with
        | nil => exact absurd hdwc hdwne
        | cons d ds =>
          have hd : decide (d = '\n') = false :=
            dropWhile_head?_false (· = '\n') r d (by rw [hdwc]; rfl)
          have hr2 : r = r.takeWhile (· = '\n') ++ (d :: ds) := by
            rw [← hdwc, List.takeWhile_append_dropWhile]
          have htw2 : (r ++ ['\n']).takeWhile (· = '\n')
              = r.takeWhile (· = '\n') := by
            nth_rewrite 1 [hr2]
            rw [List.append_assoc]
            apply takeWhile_append_of_stop
            · intro n hn
              have hx := mem_takeWhile_pred hn
              simpa using hx
            · intro d' hd'
              simp only [List.cons_append, List.head?_cons,
                Option.some.injEq] at hd'
              rw [← hd']
              exact hd
          have hdw2 : (r ++ ['\n']).dropWhile (· = '\n')
              = (d :: ds) ++ ['\n'] := by
            nth_rewrite 1 [hr2]
            rw [List.append_assoc]
            apply dropWhile_append_of_stop
            · intro n hn
              have hx := mem_takeWhile_pred hn
              simpa using hx
            · intro d' hd'
              simp only [List.cons_append, List.head?_cons,
                Option.some.injEq] at hd'
              rw [← hd']
              exact hd
          rw [List.takeWhile_cons_of_pos (by simp),
            List.dropWhile_cons_of_pos (by simp)] at hb ⊢
          rw [htw2, hdw2, mm_append_nl]
          rw [hdwc] at hb
          exact hb
      · rw [listBadAt]
        rw [List.takeWhile_cons_of_neg (by simp [hc])]
        simp
    · rcases hrlast with h1 | h1
      · exact ih (noListRun_tail h) h1
      · rw [h1]
        decide

theorem noListRun_append_nonl : ∀ (m X : List Char),
    (∀ c ∈ m, c ≠ '\n') → noListRun X = true →
    noListRun (m ++ X) = true := by
  intro m
  induction m with
  | nil => intro X _ h; simpa using h
  | cons d m' ih =>
    intro X hm h
    rw [List.cons_append, noListRun]
    simp only [Bool.and_eq_true, Bool.not_eq_true']
    refine ⟨?_, ih X (fun c hc => hm c (List.mem_cons_of_mem d hc)) h⟩
    rw [listBadAt]
    rw [List.takeWhile_cons_of_neg (by simp [hm d (List.mem_cons_self _ _)])]
    simp

theorem noListRun_nlrun : ∀ (j : Nat) (Y : List Char),
    (∀ d, Y.head? = some d → d ≠ '\n') → noListRun Y = true →
    (3 ≤ j → (matchMarker Y).isSome = false) →
    noListRun (List.replicate j '\n' ++ Y) = true := by
  intro j
  induction j with
  | zero => intro Y _ h _; simpa using h
  | succ m ih =>
    intro Y hhead h hm3
    rw [List.replicate_succ, List.cons_append, noListRun]
    simp only [Bool.and_eq_true, Bool.not_eq_true']
    constructor
    · rw [listBadAt]
      have htw : ((('\n' : Char) :: (List.replicate m '\n' ++ Y)).takeWhile
          (· = '\n')) = '\n' :: List.replicate m '\n' := by
        rw [List.takeWhile_cons_of_pos (by simp)]
        congr 1
        apply takeWhile_append_of_stop
        · intro n hn
          have := List.eq_of_mem_replicate hn
          simp [this]
        · intro d hd
          have := hhead d hd
          simp [this]
      have hdw : ((('\n' : Char) :: (List.replicate m '\n' ++ Y)).dropWhile
          (· = '\n')) = Y := by
        rw [List.dropWhile_cons_of_pos (by simp)]
        apply dropWhile_append_of_stop
        · intro n hn
          have := List.eq_of_mem_replicate hn
          simp [this]
        · intro d hd
          have := hhead d hd
          simp [this]
      rw [htw, hdw]
      simp only [List.length_cons, List.length_replicate]
      by_cases h3 : 3 ≤ m + 1
      · rw [hm3 h3]
        simp
      · have hd3 : decide (3 ≤ m + 1) = false := by simp [h3]
        rw [hd3]
        simp
    · apply ih Y hhead h
      intro h3
      exact hm3 (by omega)

theorem r7_noListRun_fuel : ∀ (n : Nat) (s : List Char), s.length ≤ n →
    noListRun (rule_list_spacing s) = true := by
  intro n
  induction n with
  | zero =>
    intro s hl
    have hs : s = [] := List.eq_nil_of_length_eq_zero (Nat.le_zero.mp hl)
    rw [hs, r7_nil]
    rfl
  | succ k ih =>
    intro s hl
    cases s with
    | nil => rw [r7_nil]; rfl
    | cons c rest =>
      simp only [List.length_cons] at hl
      have htl : (rest.drop ((rest.takeWhile (· = '\n')).length)).length
          ≤ rest.length := by
        rw [List.length_drop]
        omega
      by_cases hc : c = '\n'
      · subst hc
        by_cases h3 : 3 ≤ (rest.takeWhile (· = '\n')).length + 1
        · cases hmk : matchMarker
            (rest.drop ((rest.takeWhile (· = '\n')).length)) with
          | some m =>
            rw [r7_nl_some rest hmk h3]
            obtain ⟨hdec, hne, hnonl⟩ := matchMarker_decomp hmk
            obtain ⟨d, m', hm1, hdne⟩ :
                ∃ d m', m.1 = d :: m' ∧ d ≠ '\n' := by
              cases hm1c : m.1 with
              | nil => exact absurd hm1c hne
              | cons d m' =>
                refine ⟨d, m', rfl, ?_⟩
                apply hnonl
                rw [hm1c]
                exact List.mem_cons_self _ _
            rw [hm1, List.cons_append]
            rw [noListRun]
            simp only [Bool.and_eq_true, Bool.not_eq_true']
            constructor
            · rw [listBadAt]
              rw [List.takeWhile_cons_of_pos (by simp),
                List.takeWhile_cons_of_pos (by simp),
                List.takeWhile_cons_of_neg (by simp [hdne])]
              simp
            · rw [noListRun]
              simp only [Bool.and_eq_true, Bool.not_eq_true']
              constructor
              · rw [listBadAt]
                rw [List.takeWhile_cons_of_pos (by simp),
                  List.takeWhile_cons_of_neg (by simp [hdne])]
                simp
              · rw [← List.cons_append, ← hm1]
                apply noListRun_append_nonl m.1 _ hnonl
                apply ih m.2
                have h5 := matchMarker_len hmk
                omega
          | none =>
            rw [r7_nl_none rest hmk]
            nth_rewrite 1 [takeWhile_eq_replicate_nl rest]
            rw [← List.cons_append, ← List.replicate_succ]
            apply noListRun_nlrun
            · intro d hd
              exact r7_tail_head d hd
            · exact ih _ (by omega)
            · intro _
              rw [mm_r7]
              simp [hmk]
        · rw [r7_nl_small rest h3]
          nth_rewrite 1 [takeWhile_eq_replicate_nl rest]
          rw [← List.cons_append, ← List.replicate_succ]
          apply noListRun_nlrun
          · intro d hd
            exact r7_tail_head d hd
          · exact ih _ (by omega)
          · intro hcon
            exact absurd hcon h3
      · rw [r7_cons_ne c rest hc, noListRun]
        simp only [Bool.and_eq_true, Bool.not_eq_true']
        constructor
        · rw [listBadAt]
          rw [List.takeWhile_cons_of_neg (by simp [hc])]
          simp
        · exact ih rest (by omega)

theorem r7_noListRun (s : List Char) :
    noListRun (rule_list_spacing s) = true :=
  r7_noListRun_fuel s.length s le_rfl

theorem pyStrip_head (s : List Char) (d : Char)
    (h : (pyStrip s).head? = some d) : isPySpace d = false := by
  obtain ⟨m, hm⟩ := pyStrip_eq_take s
  rw [hm] at h
  cases m with
  | zero => simp at h
  | succ m' =>
    rw [head?_take_succ] at h
    exact dropWhile_head?_false _ _ _ h

/-- `strip` is inert on a stripped string with a single newline appended:
the appended newline is the only trailing whitespace, and the head was
already non-whitespace. -/
theorem pyStrip_strip_nl (z : List Char) :
    pyStrip (pyStrip z ++ ['\n']) = pyStrip z := by
  cases hP : pyStrip z with
  | nil =>
    rw [List.nil_append]
    decide
  | cons d P' =>
    have hdhead : isPySpace d = false := pyStrip_head z d (by rw [hP]; rfl)
    have h1 : ((d :: P') ++ ['\n']).dropWhile isPySpace
        = (d :: P') ++ ['\n'] := by
      apply dropWhile_eq_self_of_head
      intro e he
      simp only [List.cons_append, List.head?_cons, Option.some.injEq] at he
      rw [← he]
      exact hdhead
    show pyStrip ((d :: P') ++ ['\n']) = d :: P'
    unfold pyStrip
    rw [h1, List.reverse_append, List.reverse_singleton,
      List.singleton_append, List.dropWhile_cons_of_pos (by decide)]
    have h2 : (d :: P').reverse
        = (z.dropWhile isPySpace).reverse.dropWhile isPySpace := by
      rw [← hP]
      unfold pyStrip
      rw [List.reverse_reverse]
    rw [h2]
    rw [dropWhile_eq_self_of_head isPySpace _
      (fun e he => dropWhile_head?_false _ _ _ he)]
    rw [← h2, List.reverse_reverse]

/-- On input without '&', backtick or '[', only the newline-capping and
list-spacing passes act, followed by strip and the appended newline. -/
theorem clean_markdown_char_form (x : List Char) (h1 : '&' ∉ x)
    (h2 : btick ∉ x) (h3 : '[' ∉ x) :
    clean_markdown x
      = pyStrip (rule_list_spacing (capNl 0 x)) ++ ['\n'] := by
  unfold clean_markdown
  rw [htmlUnescape_id x h1]
  have hb1 : btick ∉ rule_blank_lines x := fun hx => h2 (capNl_mem x 0 hx)
  rw [rule_blank_wrap_id _ hb1, rule_double_wrap_id _ hb1,
    rule_fence_before_id _ hb1, rule_fence_after_id _ hb1]
  have hl2 : '[' ∉ rule_list_spacing (rule_blank_lines x) :=
    fun hx => h3 (capNl_mem x 0 (r7_mem hx))
  rw [rule_toc_links_id _ hl2]
  rfl

/-- C2 (amended): `clean_markdown` is idempotent on inputs free of '&'
(entity unescaping), backtick (fence rewriting) and '[' (link rules): the
newline-capping, list-spacing, strip and trailing-newline steps are all
inert on their own output. -/
theorem c2_clean_idem_no_triggers (x : List Char) (h1 : '&' ∉ x)
    (h2 : btick ∉ x) (h3 : '[' ∉ x) :
    clean_markdown (clean_markdown x) = clean_markdown x := by
  rw [clean_markdown_char_form x h1 h2 h3]
  set Y1 := capNl 0 x with hY1
  set Y2 := rule_list_spacing Y1 with hY2
  set S := pyStrip Y2 with hS
  have hmem : ∀ a : Char, a ∈ S ++ ['\n'] → a ∈ x ∨ a = '\n' := by
    intro a ha
    rcases List.mem_append.mp ha with ha1 | ha1
    · exact Or.inl (capNl_mem x 0 (r7_mem (pyStrip_mem ha1)))
    · right
      simpa using ha1
  have h1' : '&' ∉ S ++ ['\n'] := by
    intro hx
    rcases hmem _ hx with h | h
    · exact h1 h
    · exact absurd h (by decide)
  have h2' : btick ∉ S ++ ['\n'] := by
    intro hx
    rcases hmem _ hx with h | h
    · exact h2 h
    · exact absurd h (by decide)
  have h3' : '[' ∉ S ++ ['\n'] := by
    intro hx
    rcases hmem _ hx with h | h
    · exact h3 h
    · exact absurd h (by decide)
  rw [clean_markdown_char_form _ h1' h2' h3']
  have hS_last : S.getLast? ≠ some '\n' := by
    intro hg
    have := pyStrip_getLast Y2 '\n' hg
    exact absurd this (by decide)
  have hS_nl4 : nl4ok 0 S = true :=
    nl4ok_pyStrip (r7_nl4ok (nl4ok_capNl x 0 (by omega)))
  have hnl : nl4ok 0 (S ++ ['\n']) = true :=
    nl4ok_append_nl S 0 hS_nl4 (fun _ => by omega) hS_last
  have hcap : capNl 0 (S ++ ['\n']) = S ++ ['\n'] := capNl_eq_self _ 0 hnl
  have hS_nlr : noListRun S = true := noListRun_pyStrip (r7_noListRun Y1)
  have hnlr : noListRun (S ++ ['\n']) = true :=
    noListRun_append_nl S hS_nlr hS_last
  rw [hcap, rule_list_spacing_id _ hnlr, hS, pyStrip_strip_nl Y2]

theorem c2_witness :
    ('&' ∉ "hello\n\nworld".data ∧ btick ∉ "hello\n\nworld".data ∧
      '[' ∉ "hello\n\nworld".data) ∧
    clean_markdown (clean_markdown "hello\n\nworld".data)
      = clean_markdown "hello\n\nworld".data :=
  ⟨⟨by decide, by decide, by decide⟩,
    c2_clean_idem_no_triggers "hello\n\nworld".data (by decide) (by decide)
      (by decide)⟩

/-! ## `convert_html_to_markdown` orchestration (claim C6)

```python
toc_sections = parse_toc(soup)
if not toc_sections:
    logger.error("No sections found in TOC - cannot continue")
    sys.exit(1)
section_map = build_section_map(toc_sections)
for i, section in enumerate(toc_sections):
    section_html = extract_section_content(soup, section['id'])
    if not section_html:
        logger.warning(...)
        continue
    markdown_content = converter.convert_soup(section_html)
    markdown_content = clean_markdown(markdown_content)
    markdown_content = fix_internal_links(markdown_content,
                                          section['filename'], section_map)
    try:
        output_file.write_text(markdown_content, encoding='utf-8')
    except OSError as e:
        logger.error(...)
        continue
generate_readme(toc_sections, output_dir, version)
logger.info("Conversion complete! %d files created in %s",
            len(toc_sections), output_dir)
```
-/

/-- `build_section_map`: the insertion-ordered dict id → filename, modeled
as an association list in TOC order (exact for distinct section ids). -/
def build_section_map (secs : List TocEntry) : List (List Char × List Char) :=
  secs.map (fun e => (e.id, e.filename))

/-- The per-section loop.  `render` stands for the markdownify conversion
of an extracted subtree; `writeOk` for the filesystem's verdict on writing
a given filename.  Returns the files written (name and content), the count
of skipped sections (extraction returned nothing), the count of failed
writes, and the document after all destructive extractions. -/
def convert_loop (render : List HNode → List Char)
    (writeOk : List Char → Bool) (smap : List (List Char × List Char)) :
    List HNode → List TocEntry →
      (List (List Char × List Char) × Nat × Nat) × List HNode
  | doc, [] => (([], 0, 0), doc)
  | doc, e :: rest =>
    match extract_section_content doc e.id with
    | (none, doc') =>
      let r := convert_loop render writeOk smap doc' rest
      ((r.1.1, r.1.2.1 + 1, r.1.2.2), r.2)
    | (some nodes, doc') =>
      let md := fix_internal_links (clean_markdown (render nodes))
        e.filename smap
      if writeOk e.filename then
        let r := convert_loop render writeOk smap doc' rest
        (((e.filename, md) :: r.1.1, r.1.2.1, r.1.2.2), r.2)
      else
        let r := convert_loop render writeOk smap doc' rest
        ((r.1.1, r.1.2.1, r.1.2.2 + 1), r.2)

structure ConvertOutcome where
  files : List (List Char × List Char)
  skipped : Nat
  failed : Nat
  summaryCount : Nat

/-- `convert_html_to_markdown`: abort (`sys.exit(1)`, modeled as `none`)
on an empty TOC, otherwise run the loop and finish with the summary log
line, whose reported count is `len(toc_sections)`. -/
def convert_html_to_markdown (render : List HNode → List Char)
    (writeOk : List Char → Bool) (doc : List HNode) (toc : TocDoc) :
    Option ConvertOutcome :=
  let secs := parse_toc toc
  if secs.isEmpty then none
  else
    let r := convert_loop render writeOk (build_section_map secs) doc secs
    some { files := r.1.1, skipped := r.1.2.1, failed := r.1.2.2,
           summaryCount := secs.length }

theorem convert_loop_count (render : List HNode → List Char)
    (writeOk : List Char → Bool) (smap : List (List Char × List Char)) :
    ∀ (secs : List TocEntry) (doc : List HNode),
      (convert_loop render writeOk smap doc secs).1.1.length
        + (convert_loop render writeOk smap doc secs).1.2.1
        + (convert_loop render writeOk smap doc secs).1.2.2
      = secs.length := by
  intro secs
  induction secs with
  | nil => intro doc; rfl
  | cons e rest ih =>
    intro doc
    rw [convert_loop]
    cases hx : extract_section_content doc e.id with
    | mk o doc' =>
      cases o with
      | none =>
        dsimp only
        simp only [List.length_cons]
        have h := ih doc'
        omega
      | some nodes =>
        dsimp only
        by_cases hw : writeOk e.filename = true
        · rw [if_pos hw]
          dsimp only
          simp only [List.length_cons]
          have h := ih doc'
          omega
        · rw [if_neg hw]
          dsimp only
          simp only [List.length_cons]
          have h := ih doc'
          omega

/-- Concrete two-section TOC document for the C6 run. -/
def c6Toc : TocDoc :=
  { navToc := some { ul := some [
      { link := some { href := "#Values".data, text := "Values".data } },
      { link := some { href := "#Errors".data, text := "Errors".data } }] },
    divToc := none, divIndex := none, divNav := none }

/-- Concrete document body: two `h2` sections with one paragraph each. -/
def c6Doc : List HNode :=
  [ { key := 0, name := "h2".data, id := some "Values".data,
      anchorHrefs := [] },
    { key := 1, name := "p".data, id := none, anchorHrefs := [] },
    { key := 2, name := "h2".data, id := some "Errors".data,
      anchorHrefs := [] },
    { key := 3, name := "p".data, id := none, anchorHrefs := [] } ]

/-- **C6 counterexample.**  The claim says the partial success count N (of
M sections) is what the final summary reports.  On a run with two TOC
sections where the first file's write fails, the loop does continue — the
second file is still written — but the summary line prints
`len(toc_sections)` = 2 "files created", not the actual N = 1. -/
theorem c6_counterexample :
    (convert_html_to_markdown (fun _ => [])
        (fun f => leadsWith "02".data f) c6Doc c6Toc).map
      (fun out => (out.files.length, out.skipped, out.failed,
        out.summaryCount))
      = some (1, 0, 1, 2) ∧ (2 : Nat) ≠ 1 := by
  constructor
  · rfl
  · decide

/-- **C6 (amended).**  Per-entry failures (no content extracted, or a
failed write) log and continue: every TOC entry is processed exactly once,
so written + skipped + failed = M for a TOC of M entries.  The final
summary count, however, reports M — `len(toc_sections)` — not the number
N of files actually written. -/
theorem c6_continue_and_summary (render : List HNode → List Char)
    (writeOk : List Char → Bool) (doc : List HNode) (toc : TocDoc)
    (out : ConvertOutcome)
    (h : convert_html_to_markdown render writeOk doc toc = some out) :
    out.files.length + out.skipped + out.failed = (parse_toc toc).length
      ∧ out.summaryCount = (parse_toc toc).length := by
  unfold convert_html_to_markdown at h
  dsimp only at h
  by_cases he : (parse_toc toc).isEmpty = true
  · rw [if_pos he] at h
    exact absurd h (by simp)
  · rw [if_neg he] at h
    injection h with h1
    rw [← h1]
    exact ⟨convert_loop_count render writeOk _ (parse_toc toc) doc, rfl⟩

theorem c6_witness :
    (convert_html_to_markdown (fun _ => []) (fun _ => true) c6Doc
        c6Toc).map
      (fun out => (out.files.length + out.skipped + out.failed,
        out.summaryCount))
      = some ((parse_toc c6Toc).length, (parse_toc c6Toc).length) := by
  cases hx : convert_html_to_markdown (fun _ => []) (fun _ => true) c6Doc
      c6Toc with
  | none =>
    exfalso
    have hs : (convert_html_to_markdown (fun _ => []) (fun _ => true)
        c6Doc c6Toc).isSome = true := by decide
    rw [hx] at hs
    simp at hs
  | some out =>
    have h := c6_continue_and_summary (fun _ => []) (fun _ => true) c6Doc
      c6Toc out hx
    simp only [Option.map_some']
    rw [h.1, h.2]

end ZigDocs
